import Mathlib

/-!
# Verification of the FRI polynomial-commitment scheme and the AIR pipeline

A shallow embedding of the two core crates of the repository:

* `src/3_polynomial_commitment_scheme/src/main.rs` — the educational FRI
  protocol (folding kernel, prover, verifier);
* `src/4_air_constraints_design/src/main.rs` — the AIR arithmetization,
  composition / out-of-domain check, and DEEP composition demo.

Conventions of the embedding:

* The Babybear prime field `Babybear31PrimeField` is embedded as
  `ZMod 2013265921`.  Rust's `FieldElement::inv().unwrap()` panics on zero;
  in `ZMod p` we have `0⁻¹ = 0`, and every theorem that depends on an
  inversion carries the corresponding nonzero fact.
* The external `lambdaworks` collaborators (Merkle commitments over
  Keccak256, the Fiat–Shamir `DefaultTranscript`, and the primitive
  root-of-unity provider) are modelled by their documented contracts:
  digests form a free inductive type (an ideal collision-free hash),
  the transcript is a deterministic function of the absorbed history, and
  the root-of-unity provider is an explicit parameter `g`/`ω` about which
  theorems assume exactly the root-of-unity contract.  A concrete provider
  `primitiveRootOfUnity` is supplied and proved to satisfy this contract.
* Rust slice indexing `v[i]` is embedded as `List.getD v i 0`; all uses in
  the embedded code paths are in bounds, which the proofs establish where
  it matters.
* `while` loops are embedded as fuel-based structural recursions; the fuel
  supplied by the embedding of the caller is proved sufficient on the
  power-of-two inputs the protocol uses.
-/

/-- The Babybear prime `2^31 - 2^27 + 1`, the order of the field used by
both crates. -/
abbrev P : Nat := 2013265921

/-- The prime field of the implementation (`type F = Babybear31PrimeField`). -/
abbrev F : Type := ZMod P

set_option maxRecDepth 8000

/-- Fast modular exponentiation on `Nat`, by structural recursion on a fuel
argument so that the kernel can evaluate it (used to certify concrete facts
about the field, such as the multiplicative order of `3` and of `31`). -/
def powModAux : Nat → Nat → Nat → Nat → Nat
  | 0, _, _, acc => acc % P
  | fuel + 1, a, b, acc =>
    if b = 0 then acc % P
    else
      powModAux fuel (a * a % P) (b / 2) (if b % 2 = 1 then acc * a % P else acc)

/-- `powMod a b = a ^ b mod P`, computed by binary exponentiation. -/
def powMod (a b : Nat) : Nat := powModAux 64 a b 1

theorem powModAux_spec (fuel : Nat) : ∀ a b acc : Nat, b < 2 ^ fuel →
    (powModAux fuel a b acc : F) = (acc : F) * (a : F) ^ b := by
  induction fuel with
  | zero =>
    intro a b acc hb
    have hb0 : b = 0 := by omega
    subst hb0
    simp [powModAux, ZMod.natCast_mod]
  | succ n ih =>
    intro a b acc hb
    rcases Nat.eq_zero_or_pos b with hb0 | hb0
    · subst hb0
      simp [powModAux, ZMod.natCast_mod]
    · have hbne : b ≠ 0 := Nat.pos_iff_ne_zero.mp hb0
      have hlt : b / 2 < 2 ^ n := by
        have h2 : b < 2 ^ n * 2 := by
          simpa [Nat.pow_succ] using hb
        omega
      have hsq : ((a * a % P : Nat) : F) = (a : F) ^ 2 := by
        rw [ZMod.natCast_mod]
        push_cast
        ring
      rw [powModAux]
      simp only [hbne, if_false]
      rw [ih _ _ _ hlt, hsq, ← pow_mul]
      by_cases hpar : b % 2 = 1
      · simp only [hpar, if_true]
        rw [ZMod.natCast_mod]
        push_cast
        have hbsplit : b = b / 2 * 2 + 1 := by omega
        conv_rhs => rw [hbsplit]
        rw [pow_add]
        ring
      · simp only [hpar, if_false]
        have hbsplit : b = 2 * (b / 2) := by omega
        conv_rhs => rw [hbsplit]

theorem powMod_spec (a b : Nat) (hb : b < 2 ^ 64) : (powMod a b : F) = (a : F) ^ b := by
  rw [powMod, powModAux_spec 64 a b 1 hb]
  simp

theorem natCast31 : ((31 : Nat) : F) = (31 : F) := by norm_cast

theorem pow31_p_sub_one : (31 : F) ^ (P - 1) = 1 := by
  have h := powMod_spec 31 (P - 1) (by norm_num)
  rw [natCast31] at h
  rw [← h]
  decide

theorem pow31_div2 : (31 : F) ^ ((P - 1) / 2) ≠ 1 := by
  have h := powMod_spec 31 ((P - 1) / 2) (by norm_num)
  rw [natCast31] at h
  rw [← h]
  decide

theorem pow31_div3 : (31 : F) ^ ((P - 1) / 3) ≠ 1 := by
  have h := powMod_spec 31 ((P - 1) / 3) (by norm_num)
  rw [natCast31] at h
  rw [← h]
  decide

theorem pow31_div5 : (31 : F) ^ ((P - 1) / 5) ≠ 1 := by
  have h := powMod_spec 31 ((P - 1) / 5) (by norm_num)
  rw [natCast31] at h
  rw [← h]
  decide

/-- `P` is prime, certified by the Lucas test with the primitive root `31`. -/
theorem P_prime : Nat.Prime P := by
  apply lucas_primality P (31 : F) pow31_p_sub_one
  intro q hq hqd
  have hsplit : (P - 1 : Nat) = 2 ^ 27 * (3 * 5) := by norm_num
  rw [hsplit] at hqd
  have hq235 : q = 2 ∨ q = 3 ∨ q = 5 := by
    rcases (Nat.Prime.dvd_mul hq).mp hqd with h | h
    · exact Or.inl ((Nat.prime_dvd_prime_iff_eq hq Nat.prime_two).mp (hq.dvd_of_dvd_pow h))
    · rcases (Nat.Prime.dvd_mul hq).mp h with h3 | h5
      · exact Or.inr (Or.inl ((Nat.prime_dvd_prime_iff_eq hq (by norm_num)).mp h3))
      · exact Or.inr (Or.inr ((Nat.prime_dvd_prime_iff_eq hq (by norm_num)).mp h5))
  rcases hq235 with rfl | rfl | rfl
  · exact pow31_div2
  · exact pow31_div3
  · exact pow31_div5

instance : Fact (Nat.Prime P) := ⟨P_prime⟩

theorem two_ne_zero_F : (2 : F) ≠ 0 := by decide

-- ---------------------------------------------------------------------------
-- Polynomials as coefficient lists (ascending powers), the representation of
-- `lambdaworks_math::polynomial::Polynomial` used by both crates.
-- ---------------------------------------------------------------------------

/-- `Polynomial::evaluate`: Horner evaluation of a coefficient list. -/
def evalPoly (coeffs : List F) (x : F) : F :=
  coeffs.foldr (fun c acc => c + x * acc) 0

/-- Pointwise sum of two coefficient lists (`Polynomial` addition). -/
def polyAdd : List F → List F → List F
  | [], q => q
  | p, [] => p
  | c :: p, d :: q => (c + d) :: polyAdd p q

/-- Product of two coefficient lists (`Polynomial` multiplication). -/
def polyMul : List F → List F → List F
  | [], _ => []
  | c :: p, q => polyAdd (q.map (fun d => c * d)) (0 :: polyMul p q)

/-- Interpretation of a coefficient list as a `Mathlib` polynomial
(proof-side semantics of the coefficient-vector representation). -/
noncomputable def toPoly (coeffs : List F) : Polynomial F :=
  coeffs.foldr (fun c q => Polynomial.C c + Polynomial.X * q) 0

theorem toPoly_nil : toPoly ([] : List F) = 0 := rfl

theorem toPoly_cons (c : F) (cs : List F) :
    toPoly (c :: cs) = Polynomial.C c + Polynomial.X * toPoly cs := rfl

theorem evalPoly_nil (x : F) : evalPoly [] x = 0 := rfl

theorem evalPoly_cons (c : F) (cs : List F) (x : F) :
    evalPoly (c :: cs) x = c + x * evalPoly cs x := rfl

theorem toPoly_eval (coeffs : List F) (x : F) :
    (toPoly coeffs).eval x = evalPoly coeffs x := by
  induction coeffs with
  | nil => simp [toPoly_nil, evalPoly_nil]
  | cons c cs ih => simp [toPoly_cons, evalPoly_cons, ih]

theorem toPoly_polyAdd (p q : List F) :
    toPoly (polyAdd p q) = toPoly p + toPoly q := by
  induction p generalizing q with
  | nil => simp [polyAdd, toPoly_nil]
  | cons c cs ih =>
    cases q with
    | nil => simp [polyAdd, toPoly_nil]
    | cons d ds =>
      show toPoly ((c + d) :: polyAdd cs ds) = _
      rw [toPoly_cons, ih, toPoly_cons, toPoly_cons, Polynomial.C_add]
      ring

theorem toPoly_map_mul (c : F) (q : List F) :
    toPoly (q.map (fun d => c * d)) = Polynomial.C c * toPoly q := by
  induction q with
  | nil => simp [toPoly_nil]
  | cons d ds ih =>
    show toPoly (c * d :: ds.map (fun d => c * d)) = _
    rw [toPoly_cons, ih, toPoly_cons, Polynomial.C_mul]
    ring

theorem toPoly_polyMul (p q : List F) :
    toPoly (polyMul p q) = toPoly p * toPoly q := by
  induction p with
  | nil => simp [polyMul, toPoly_nil]
  | cons c cs ih =>
    show toPoly (polyAdd (q.map (fun d => c * d)) (0 :: polyMul cs q)) = _
    rw [toPoly_polyAdd, toPoly_map_mul, toPoly_cons, ih, toPoly_cons, Polynomial.C_0]
    ring

theorem evalPoly_polyMul (p q : List F) (x : F) :
    evalPoly (polyMul p q) x = evalPoly p x * evalPoly q x := by
  rw [← toPoly_eval, toPoly_polyMul, Polynomial.eval_mul, toPoly_eval, toPoly_eval]

theorem toPoly_natDegree_le (coeffs : List F) :
    (toPoly coeffs).natDegree ≤ coeffs.length - 1 := by
  induction coeffs with
  | nil => simp [toPoly_nil]
  | cons c cs ih =>
    cases cs with
    | nil =>
      simp [toPoly_cons, toPoly_nil, Polynomial.natDegree_C]
    | cons d ds =>
      rw [toPoly_cons]
      have h1 : (Polynomial.X * toPoly (d :: ds)).natDegree ≤
          1 + (toPoly (d :: ds)).natDegree := by
        refine le_trans (Polynomial.natDegree_mul_le) ?_
        simp [Polynomial.natDegree_X]
      have h2 := Polynomial.natDegree_add_le (Polynomial.C c) (Polynomial.X * toPoly (d :: ds))
      rw [Polynomial.natDegree_C] at h2
      simp only [Nat.zero_max] at h2
      simp only [List.length_cons] at ih ⊢
      omega

/-- Helper: indexing a mapped range. -/
theorem getD_map_range {α : Type} [Inhabited α] (n i : Nat) (f : Nat → α) (d : α) (h : i < n) :
    (((List.range n).map f).getD i d) = f i := by
  rw [List.getD_eq_getElem _ _ (by simpa using h)]
  simp

-- ---------------------------------------------------------------------------
-- The FRI folding kernel (`fold_evaluations` in
-- src/3_polynomial_commitment_scheme/src/main.rs, lines 178–209).
-- ---------------------------------------------------------------------------

/-- `fold_evaluations`: fold a layer of evaluations with the challenge `beta`.
`FieldElement::inv` is embedded as `ZMod` inverse (which maps 0 to 0; the Rust
code unwraps, and every theorem tracks the nonzero side conditions). -/
def fold_evaluations (evaluations domain : List F) (beta : F) : List F × List F :=
  let next_domain_size := domain.length / 2
  let two_inv : F := (2 : F)⁻¹
  let next_evaluations := (List.range next_domain_size).map (fun i =>
    let y := evaluations.getD i 0
    let y_symmetric := evaluations.getD (i + next_domain_size) 0
    let x := domain.getD i 0
    let x_inv := x⁻¹
    let f_even := (y + y_symmetric) * two_inv
    let f_odd := (y - y_symmetric) * two_inv * x_inv
    f_even + beta * f_odd)
  let next_domain := (domain.take next_domain_size).map (fun x => x * x)
  (next_evaluations, next_domain)

theorem fold_evaluations_fst_def (evaluations domain : List F) (beta : F) :
    (fold_evaluations evaluations domain beta).1 =
      (List.range (domain.length / 2)).map (fun i =>
        (evaluations.getD i 0 + evaluations.getD (i + domain.length / 2) 0) * (2 : F)⁻¹
          + beta * ((evaluations.getD i 0 - evaluations.getD (i + domain.length / 2) 0)
              * (2 : F)⁻¹ * (domain.getD i 0)⁻¹)) := rfl

theorem fold_evaluations_snd_def (evaluations domain : List F) (beta : F) :
    (fold_evaluations evaluations domain beta).2 =
      (domain.take (domain.length / 2)).map (fun x => x * x) := rfl

theorem fold_evaluations_fst_length (evaluations domain : List F) (beta : F) :
    (fold_evaluations evaluations domain beta).1.length = domain.length / 2 := by
  rw [fold_evaluations_fst_def]
  simp

theorem fold_evaluations_snd_length (evaluations domain : List F) (beta : F)
    (h : 2 ∣ domain.length) :
    (fold_evaluations evaluations domain beta).2.length = domain.length / 2 := by
  rw [fold_evaluations_snd_def]
  simp only [List.length_map, List.length_take]
  omega

theorem fold_evaluations_fst_getD (evaluations domain : List F) (beta : F)
    (i : Nat) (h : i < domain.length / 2) :
    (fold_evaluations evaluations domain beta).1.getD i 0 =
      (evaluations.getD i 0 + evaluations.getD (i + domain.length / 2) 0) * (2 : F)⁻¹
        + beta * ((evaluations.getD i 0 - evaluations.getD (i + domain.length / 2) 0)
            * (2 : F)⁻¹ * (domain.getD i 0)⁻¹) := by
  rw [fold_evaluations_fst_def]
  rw [getD_map_range _ _ _ _ h]

theorem fold_evaluations_snd_getD (evaluations domain : List F) (beta : F)
    (i : Nat) (h : i < domain.length / 2) :
    (fold_evaluations evaluations domain beta).2.getD i 0 = domain.getD i 0 * domain.getD i 0 := by
  rw [fold_evaluations_snd_def]
  have hi : i < ((domain.take (domain.length / 2)).map (fun x => x * x)).length := by
    simp
    omega
  rw [List.getD_eq_getElem _ _ hi]
  rw [List.getElem_map, List.getElem_take]
  rw [List.getD_eq_getElem _ _ (by omega)]

theorem fold_formula_eval (A B x beta : F) (hx : x ≠ 0) :
    ((A + x * B) + (A + -x * B)) * (2 : F)⁻¹
      + beta * (((A + x * B) - (A + -x * B)) * (2 : F)⁻¹ * x⁻¹) = A + beta * B := by
  have h2 : (2 : F) ≠ 0 := two_ne_zero_F
  field_simp
  ring

theorem getD_mem_of_lt {l : List F} {i : Nat} (h : i < l.length) : l.getD i 0 ∈ l := by
  rw [List.getD_eq_getElem _ _ h]
  exact List.getElem_mem h

/-- **C2.** For every domain `D` of even size `N` with all entries nonzero, every
evaluation vector of length `N`, and every challenge `β`, `fold_evaluations`
returns a vector of length `N/2` whose `i`-th entry is
`(y_i + y_{i+N/2})/2 + β·(y_i − y_{i+N/2})/(2·D[i])`, together with a next
domain of length `N/2` whose `i`-th entry is `D[i]²`; and when the inputs are
the evaluations of `f(x) = f_e(x²) + x·f_o(x²)` on a domain with
`D[i+N/2] = −D[i]`, the output vector is exactly the evaluation of
`f_e + β·f_o` at the squared domain points. -/
theorem C2_fold_evaluations (evaluations domain : List F) (beta : F)
    (heven : 2 ∣ domain.length) (hlen : evaluations.length = domain.length)
    (hnz : ∀ x ∈ domain, x ≠ 0) :
    (fold_evaluations evaluations domain beta).1.length = domain.length / 2 ∧
    (fold_evaluations evaluations domain beta).2.length = domain.length / 2 ∧
    (∀ i < domain.length / 2,
      (fold_evaluations evaluations domain beta).1.getD i 0 =
        (evaluations.getD i 0 + evaluations.getD (i + domain.length / 2) 0) / 2 +
          beta * (evaluations.getD i 0 - evaluations.getD (i + domain.length / 2) 0)
            / (2 * domain.getD i 0) ∧
      (fold_evaluations evaluations domain beta).2.getD i 0 = domain.getD i 0 ^ 2) ∧
    (∀ f_e f_o : List F,
      (∀ i < domain.length, evaluations.getD i 0 =
          evalPoly f_e (domain.getD i 0 ^ 2)
            + domain.getD i 0 * evalPoly f_o (domain.getD i 0 ^ 2)) →
      (∀ i < domain.length / 2, domain.getD (i + domain.length / 2) 0 = - domain.getD i 0) →
      ∀ i < domain.length / 2,
        (fold_evaluations evaluations domain beta).1.getD i 0 =
          evalPoly f_e (domain.getD i 0 ^ 2) + beta * evalPoly f_o (domain.getD i 0 ^ 2)) := by
  refine ⟨fold_evaluations_fst_length _ _ _, fold_evaluations_snd_length _ _ _ heven, ?_, ?_⟩
  · intro i hi
    constructor
    · rw [fold_evaluations_fst_getD _ _ _ _ hi]
      rw [div_eq_mul_inv, div_eq_mul_inv, mul_inv]
      ring
    · rw [fold_evaluations_snd_getD _ _ _ _ hi]
      ring
  · intro f_e f_o hf hsym i hi
    have hx : domain.getD i 0 ≠ 0 := hnz _ (getD_mem_of_lt (by omega))
    have h2 : (2 : F) ≠ 0 := two_ne_zero_F
    have hy := hf i (by omega)
    have hy2 := hf (i + domain.length / 2) (by omega)
    rw [hsym i hi, neg_sq] at hy2
    rw [fold_evaluations_fst_getD _ _ _ _ hi, hy, hy2]
    exact fold_formula_eval _ _ _ beta hx

/-- Witness for C2 at a concrete input: `N = 2`, `D = [1, −1]`,
evaluations `[3, 5]`, `β = 7`. -/
theorem C2_fold_evaluations_witness :
    (fold_evaluations [3, 5] [1, 2013265920] 7).1.length = 1 ∧
    (fold_evaluations [3, 5] [1, 2013265920] 7).2.length = 1 ∧
    (∀ i < 1,
      (fold_evaluations [3, 5] [1, 2013265920] 7).1.getD i 0 =
        (([3, 5] : List F).getD i 0 + ([3, 5] : List F).getD (i + 1) 0) / 2 +
          7 * (([3, 5] : List F).getD i 0 - ([3, 5] : List F).getD (i + 1) 0)
            / (2 * ([1, 2013265920] : List F).getD i 0) ∧
      (fold_evaluations [3, 5] [1, 2013265920] 7).2.getD i 0 =
        ([1, 2013265920] : List F).getD i 0 ^ 2) ∧
    (∀ f_e f_o : List F,
      (∀ i < 2, ([3, 5] : List F).getD i 0 =
          evalPoly f_e (([1, 2013265920] : List F).getD i 0 ^ 2)
            + ([1, 2013265920] : List F).getD i 0
              * evalPoly f_o (([1, 2013265920] : List F).getD i 0 ^ 2)) →
      (∀ i < 1, ([1, 2013265920] : List F).getD (i + 1) 0 =
          - ([1, 2013265920] : List F).getD i 0) →
      ∀ i < 1,
        (fold_evaluations [3, 5] [1, 2013265920] 7).1.getD i 0 =
          evalPoly f_e (([1, 2013265920] : List F).getD i 0 ^ 2)
            + 7 * evalPoly f_o (([1, 2013265920] : List F).getD i 0 ^ 2)) := by
  have h := C2_fold_evaluations [3, 5] [1, 2013265920] 7 (by decide) (by decide)
    (by
      intro x hx
      simp only [List.mem_cons, List.not_mem_nil, or_false] at hx
      rcases hx with rfl | rfl <;> decide)
  simpa using h

-- ---------------------------------------------------------------------------
-- FRI protocol parameters (`FriParameters` in
-- src/3_polynomial_commitment_scheme/src/main.rs, lines 100–131).
-- ---------------------------------------------------------------------------

/-- `FriParameters`: shared parameters agreed by prover and verifier. -/
structure FriParameters where
  domain_0 : List F
  num_queries : Nat
  domain_0_size : Nat
deriving DecidableEq, Repr

/-- `FriParameters::new`.  The external call
`F::get_primitive_root_of_unity(root_order)` is modelled by the explicit
parameter `generator`; theorems assume of it exactly the provider's contract
(a primitive root of unity of order `domain_size`). -/
def FriParameters.new (generator : F)
    (claimed_degree blowup_factor num_queries : Nat) : FriParameters :=
  let domain_size := (claimed_degree + 1) * blowup_factor
  { domain_0 := (List.range domain_size).map (fun i => generator ^ i)
    num_queries := num_queries
    domain_0_size := domain_size }

theorem FriParameters.new_domain_0 (g : F) (d b q : Nat) :
    (FriParameters.new g d b q).domain_0 =
      (List.range ((d + 1) * b)).map (fun i => g ^ i) := rfl

theorem FriParameters.new_size (g : F) (d b q : Nat) :
    (FriParameters.new g d b q).domain_0_size = (d + 1) * b := rfl

/-- In a field, an element whose square is `1` and which is not `1`
must be `-1`; applied to `g^(N/2)` for a primitive `N`-th root `g`. -/
theorem pow_half_eq_neg_one (g : F) (N : Nat) (h2 : 2 ∣ N) (hpos : 0 < N)
    (hg1 : g ^ N = 1) (hprim : ∀ m < N, 0 < m → g ^ m ≠ 1) :
    g ^ (N / 2) = -1 := by
  have hsq : (g ^ (N / 2)) ^ 2 = 1 := by
    rw [← pow_mul, Nat.div_mul_cancel h2]
    exact hg1
  have hprod : (g ^ (N / 2) - 1) * (g ^ (N / 2) + 1) = 0 := by
    have : (g ^ (N / 2) - 1) * (g ^ (N / 2) + 1) = (g ^ (N / 2)) ^ 2 - 1 := by ring
    rw [this, hsq, sub_self]
  rcases mul_eq_zero.mp hprod with h | h
  · exfalso
    have hne : g ^ (N / 2) ≠ 1 := hprim (N / 2) (by omega) (by omega)
    exact hne (by linear_combination h)
  · linear_combination h

/-- **C8.** For the subgroup domain constructed by `FriParameters::new` with
`N = (claimed_degree + 1) * blowup_factor` a power of two of even size and a
primitive `N`-th root of unity `g`: `domain[i + N/2] = -domain[i]` for every
`i < N/2`. -/
theorem C8_symmetric_domain (generator : F)
    (claimed_degree blowup_factor num_queries k : Nat)
    (hN : (claimed_degree + 1) * blowup_factor = 2 ^ (k + 1))
    (hg1 : generator ^ ((claimed_degree + 1) * blowup_factor) = 1)
    (hprim : ∀ m < (claimed_degree + 1) * blowup_factor, 0 < m → generator ^ m ≠ 1) :
    ∀ i < (FriParameters.new generator claimed_degree blowup_factor num_queries).domain_0_size / 2,
      (FriParameters.new generator claimed_degree blowup_factor num_queries).domain_0.getD
        (i + (FriParameters.new generator claimed_degree blowup_factor
              num_queries).domain_0_size / 2) 0 =
      - (FriParameters.new generator claimed_degree blowup_factor
            num_queries).domain_0.getD i 0 := by
  intro i hi
  rw [FriParameters.new_size] at hi ⊢
  rw [FriParameters.new_domain_0]
  set N := (claimed_degree + 1) * blowup_factor with hNdef
  have h2 : 2 ∣ N := by rw [hN]; exact ⟨2 ^ k, by ring⟩
  have hpos : 0 < N := by rw [hN]; positivity
  rw [getD_map_range _ _ _ _ (by omega), getD_map_range _ _ _ _ (by omega)]
  rw [pow_add, pow_half_eq_neg_one generator N h2 hpos hg1 hprim]
  ring

/-- Witness for C8: `claimed_degree = 1`, `blowup_factor = 2`, `N = 4`,
`g = 1728404513` (a primitive fourth root of unity in Babybear). -/
theorem C8_symmetric_domain_witness :
    ((1 + 1) * 2 = 2 ^ (1 + 1) ∧ (1728404513 : F) ^ ((1 + 1) * 2) = 1) ∧
    ∀ i < (FriParameters.new 1728404513 1 2 2).domain_0_size / 2,
      (FriParameters.new 1728404513 1 2 2).domain_0.getD
        (i + (FriParameters.new 1728404513 1 2 2).domain_0_size / 2) 0 =
      - (FriParameters.new 1728404513 1 2 2).domain_0.getD i 0 :=
  ⟨⟨by decide, by decide⟩,
    C8_symmetric_domain 1728404513 1 2 2 1 (by decide) (by decide) (by decide)⟩

-- ---------------------------------------------------------------------------
-- The Fiat–Shamir transcript (external `DefaultTranscript`), modelled as a
-- deterministic function of the absorbed history.
-- ---------------------------------------------------------------------------

/-- Byte strings exchanged with the transcript. -/
abbrev Bytes := List Nat

/-- One transcript interaction: absorbing a byte string or squeezing output. -/
inductive TranscriptEvent
  | absorb (bs : Bytes)
  | squeeze
deriving DecidableEq, Repr

/-- Model of `DefaultTranscript`: the state is the interaction history; every
squeezed output is a fixed deterministic function of that history, which is
the contract the protocol relies on (identical histories give identical
challenges). -/
structure Transcript where
  history : List TranscriptEvent
deriving DecidableEq, Repr

/-- `PROTOCOL_ID = b"Educational FRI"`. -/
def PROTOCOL_ID : Bytes := [69, 100, 117, 99, 97, 116, 105, 111, 110, 97, 108, 32, 70, 82, 73]

/-- `DefaultTranscript::new(PROTOCOL_ID)`. -/
def Transcript.new : Transcript := ⟨[.absorb PROTOCOL_ID]⟩

/-- `append_bytes`: absorb a byte string. -/
def Transcript.append_bytes (t : Transcript) (bs : Bytes) : Transcript :=
  ⟨t.history ++ [.absorb bs]⟩

/-- One step of the 64-bit mixing function standing in for the Keccak
sponge inside the modelled transcript. -/
def mixStep (acc b : Nat) : Nat :=
  (acc * 1099511628211 + b + 257) % 18446744073709551616

/-- Injective encoding of a transcript event as bytes for mixing. -/
def TranscriptEvent.encode : TranscriptEvent → Bytes
  | .absorb bs => 0 :: bs
  | .squeeze => [1]

/-- The deterministic digest of the transcript history (a 64-bit value). -/
def Transcript.digestNat (t : Transcript) : Nat :=
  t.history.foldl (fun acc e => e.encode.foldl mixStep (mixStep acc 2)) 14695981039346656037

/-- `sample_field_element`: squeeze a field element (and advance the state). -/
def Transcript.sample_field_element (t : Transcript) : F × Transcript :=
  ((t.digestNat : F), ⟨t.history ++ [.squeeze]⟩)

/-- `sample()[..8]` as a big-endian `u64` (the digest is already < 2^64). -/
def Transcript.sample_u64 (t : Transcript) : Nat × Transcript :=
  (t.digestNat, ⟨t.history ++ [.squeeze]⟩)

/-- `sample_index` (identical on prover and verifier): squeeze a `u64` and
reduce it modulo `max_value`. -/
def sample_index (t : Transcript) (max_value : Nat) : Nat × Transcript :=
  let (v, t1) := t.sample_u64
  (v % max_value, t1)

/-- `FieldElement::as_bytes`: the canonical serialization, modelled as the
canonical residue. -/
def serializeFE (v : F) : Bytes := [v.val]

-- ---------------------------------------------------------------------------
-- Merkle commitments (external `MerkleTree<Keccak256Backend>`), modelled as
-- an ideal (collision-free) hash: digests form a free inductive type.
-- ---------------------------------------------------------------------------

/-- A 32-byte digest, idealized: leaf hashes and node hashes are free
constructors, so distinct pre-images have distinct digests. -/
inductive Digest
  | leaf (v : F)
  | node (l r : Digest)
deriving DecidableEq, Repr

/-- The digest bytes absorbed into the transcript. -/
def Digest.encode : Digest → Bytes
  | .leaf v => 0 :: [v.val]
  | .node l r => 1 :: (l.encode ++ r.encode)

/-- Base-2 logarithm by structural recursion on a fuel argument. -/
def log2Aux : Nat → Nat → Nat
  | 0, _ => 0
  | fuel + 1, n => if n ≤ 1 then 0 else log2Aux fuel (n / 2) + 1

/-- `log2` of a list length (the tree height for power-of-two leaf counts). -/
def myLog2 (n : Nat) : Nat := log2Aux n n

/-- Digest of the perfect Merkle tree of height `k` over the given leaves. -/
def rootPow : Nat → List F → Digest
  | 0, l => .leaf (l.getD 0 0)
  | k + 1, l => .node (rootPow k (l.take (2 ^ k))) (rootPow k (l.drop (2 ^ k)))

/-- Authentication path (bottom-up list of sibling digests) for the leaf at
`pos` in the perfect tree of height `k`. -/
def pathPow : Nat → List F → Nat → List Digest
  | 0, _, _ => []
  | k + 1, l, pos =>
    if pos < 2 ^ k then
      pathPow k (l.take (2 ^ k)) pos ++ [rootPow k (l.drop (2 ^ k))]
    else
      pathPow k (l.drop (2 ^ k)) (pos - 2 ^ k) ++ [rootPow k (l.take (2 ^ k))]

/-- One step of `Proof::verify`: pair the running digest with the next
sibling, ordered by the parity of the running index. -/
def verifyPathStep (acc : Digest × Nat) (sibling : Digest) : Digest × Nat :=
  (if acc.2 % 2 = 0 then .node acc.1 sibling else .node sibling acc.1, acc.2 / 2)

/-- `Proof::verify`: recompute the root from a leaf value, its position and
an authentication path, and compare with the commitment. -/
def verifyPath (root : Digest) (pos : Nat) (value : F) (path : List Digest) : Bool :=
  (path.foldl verifyPathStep (Digest.leaf value, pos)).1 == root

/-- The Merkle tree over a vector of field elements. -/
structure MerkleTreeM where
  leaves : List F
deriving DecidableEq, Repr

/-- The root digest (the perfect-tree digest; sizes are powers of two in
every protocol use). -/
def MerkleTreeM.root (t : MerkleTreeM) : Digest :=
  rootPow (myLog2 t.leaves.length) t.leaves

/-- `get_proof_by_pos`: the authentication path for position `pos`. -/
def MerkleTreeM.get_proof_by_pos (t : MerkleTreeM) (pos : Nat) : List Digest :=
  pathPow (myLog2 t.leaves.length) t.leaves pos

/-- `MerkleTree::build`: fails exactly on an empty slice of leaves. -/
def merkleBuild (leaves : List F) : Option MerkleTreeM :=
  if leaves.isEmpty then none else some ⟨leaves⟩

-- ---------------------------------------------------------------------------
-- FRI data structures and errors (src/3_polynomial_commitment_scheme).
-- ---------------------------------------------------------------------------

/-- `FriLayer`: evaluations, their Merkle tree, and the layer domain. -/
structure FriLayer where
  evaluations : List F
  merkle_tree : MerkleTreeM
  domain : List F
deriving DecidableEq, Repr

/-- `QueryDecommitment`: four parallel per-layer lists. -/
structure QueryDecommitment where
  layer_evaluations : List F
  layer_auth_paths : List (List Digest)
  layer_evaluations_sym : List F
  layer_auth_paths_sym : List (List Digest)
deriving DecidableEq, Repr

/-- `FriProof`. -/
structure FriProof where
  layer_commitments : List Digest
  last_layer_value : F
  query_decommitments : List QueryDecommitment
deriving DecidableEq, Repr

/-- `FriError`.  The Rust `InconsistentFolding` carries hex strings of the
two values; the model carries the field elements themselves. -/
inductive FriError
  | MerkleTreeConstructionError (msg : String)
  | InvalidMerkleProof
  | InconsistentFolding (layer : Nat) (expected got : F)
deriving DecidableEq, Repr

-- ---------------------------------------------------------------------------
-- The FRI prover (src/3_polynomial_commitment_scheme/src/main.rs, 214–396).
-- ---------------------------------------------------------------------------

namespace Prover

/-- `Prover::commit_phase`: evaluate the polynomial over the initial domain,
commit, and absorb the root. -/
def commit_phase (poly : List F) (params : FriParameters) (t : Transcript) :
    Except FriError (FriLayer × Transcript) :=
  let evaluations := params.domain_0.map (evalPoly poly)
  match merkleBuild evaluations with
  | none => .error (.MerkleTreeConstructionError "Failed to build initial Merkle tree")
  | some merkle_tree =>
    .ok ({ evaluations := evaluations, merkle_tree := merkle_tree,
           domain := params.domain_0 },
         t.append_bytes merkle_tree.root.encode)

/-- The `while` loop of `Prover::fold_phase`, with explicit fuel (the loop
halves the evaluation count each round, so any fuel above `log2` of the
initial size is sufficient; the embedding passes the initial size itself). -/
def fold_loop : Nat → Transcript → List FriLayer → FriLayer →
    Except FriError (List FriLayer × F × Transcript)
  | 0, _, _, _ => .error (.MerkleTreeConstructionError "fuel exhausted")
  | fuel + 1, t, acc, cur =>
    if cur.evaluations.length ≤ 1 then
      let last_value := cur.evaluations.getD 0 0
      .ok (acc ++ [cur], last_value, t.append_bytes (serializeFE last_value))
    else
      let (beta, t1) := t.sample_field_element
      let (next_evaluations, next_domain) :=
        fold_evaluations cur.evaluations cur.domain beta
      match merkleBuild next_evaluations with
      | none => .error (.MerkleTreeConstructionError "Failed to build Merkle tree")
      | some tree =>
        fold_loop fuel (t1.append_bytes tree.root.encode) (acc ++ [cur])
          { evaluations := next_evaluations, merkle_tree := tree, domain := next_domain }

/-- `Prover::fold_phase`. -/
def fold_phase (t : Transcript) (initial_layer : FriLayer) :
    Except FriError (List FriLayer × F × Transcript) :=
  fold_loop (initial_layer.evaluations.length + 1) t [] initial_layer

/-- The per-query walk over the layers in `Prover::query_phase`. -/
def query_decommitment : List FriLayer → Nat → QueryDecommitment
  | [], _ => ⟨[], [], [], []⟩
  | layer :: rest, query_idx =>
    let domain_size := layer.domain.length
    let sym_idx := (query_idx + domain_size / 2) % domain_size
    let d := query_decommitment rest (query_idx % max (domain_size / 2) 1)
    { layer_evaluations := layer.evaluations.getD query_idx 0 :: d.layer_evaluations
      layer_auth_paths := layer.merkle_tree.get_proof_by_pos query_idx :: d.layer_auth_paths
      layer_evaluations_sym := layer.evaluations.getD sym_idx 0 :: d.layer_evaluations_sym
      layer_auth_paths_sym :=
        layer.merkle_tree.get_proof_by_pos sym_idx :: d.layer_auth_paths_sym }

/-- Sampling of the query indices (`(0..num_queries).map(|_| sample_index)`). -/
def sampleIndices : Nat → Nat → Transcript → List Nat × Transcript
  | 0, _, t => ([], t)
  | q + 1, max_value, t =>
    let (i, t1) := sample_index t max_value
    let (rest, t2) := sampleIndices q max_value t1
    (i :: rest, t2)

/-- `Prover::query_phase`. -/
def query_phase (params : FriParameters) (t : Transcript) (layers : List FriLayer) :
    List QueryDecommitment × Transcript :=
  let (query_indices, t1) := sampleIndices params.num_queries params.domain_0_size t
  (query_indices.map (query_decommitment layers), t1)

/-- `Prover::prove`: commit, fold, and answer the sampled queries (the
transcript starts from `Prover::new`, seeded with the protocol id). -/
def prove (poly : List F) (params : FriParameters) : Except FriError FriProof :=
  match commit_phase poly params Transcript.new with
  | .error e => .error e
  | .ok (initial_layer, t1) =>
    match fold_phase t1 initial_layer with
    | .error e => .error e
    | .ok (layers, last_value, t2) =>
      let (query_decommitments, _t3) := query_phase params t2 layers
      .ok { layer_commitments := layers.map (fun l => l.merkle_tree.root)
            last_layer_value := last_value
            query_decommitments := query_decommitments }

end Prover

-- ---------------------------------------------------------------------------
-- The FRI verifier (src/3_polynomial_commitment_scheme/src/main.rs, 401–595).
-- ---------------------------------------------------------------------------

namespace Verifier

/-- The fold over `layer_commitments.iter().skip(1)` inside
`Verifier::reconstruct_challenges`: squeeze each `beta` before absorbing the
following commitment. -/
def reconstructBetas : List Digest → Transcript → List F × Transcript
  | [], t => ([], t)
  | c :: rest, t =>
    let (beta, t1) := t.sample_field_element
    let t2 := t1.append_bytes c.encode
    let (betas, t3) := reconstructBetas rest t2
    (beta :: betas, t3)

/-- `Verifier::reconstruct_challenges`: replay the prover's transcript from
the proof data and derive the betas and query indices. -/
def reconstruct_challenges (params : FriParameters) (t : Transcript) (proof : FriProof) :
    (List F × List Nat) × Transcript :=
  let t0 := t.append_bytes (proof.layer_commitments.getD 0 (Digest.leaf 0)).encode
  let (betas, t1) := reconstructBetas (proof.layer_commitments.drop 1) t0
  let t2 := t1.append_bytes (serializeFE proof.last_layer_value)
  let (query_indices, t3) :=
    Prover.sampleIndices proof.query_decommitments.length params.domain_0_size t2
  ((betas, query_indices), t3)

/-- The loop of `Verifier::verify_merkle_paths` over the layers. -/
def verify_merkle_paths_loop (domain_0_size : Nat) :
    List Digest → Nat → Nat → QueryDecommitment → Except FriError Unit
  | [], _, _, _ => .ok ()
  | commitment :: rest, i, current_idx, dec =>
    let domain_size := domain_0_size >>> i
    let sym_idx := (current_idx + domain_size / 2) % domain_size
    if verifyPath commitment current_idx (dec.layer_evaluations.getD i 0)
        (dec.layer_auth_paths.getD i []) then
      if verifyPath commitment sym_idx (dec.layer_evaluations_sym.getD i 0)
          (dec.layer_auth_paths_sym.getD i []) then
        verify_merkle_paths_loop domain_0_size rest (i + 1)
          (current_idx % max (domain_size / 2) 1) dec
      else .error .InvalidMerkleProof
    else .error .InvalidMerkleProof

/-- `Verifier::verify_merkle_paths`. -/
def verify_merkle_paths (params : FriParameters) (proof : FriProof)
    (query_idx : Nat) (dec : QueryDecommitment) : Except FriError Unit :=
  verify_merkle_paths_loop params.domain_0_size proof.layer_commitments 0 query_idx dec

/-- The body of the folding-consistency recomputation at layer `i`
(`Verifier::verify_folding_consistency`, the code inside the `for` loop). -/
def expected_child_evaluation (generator : F) (domain_0_size : Nat)
    (dec : QueryDecommitment) (betas : List F) (query_idx i : Nat) : F :=
  let y := dec.layer_evaluations.getD i 0
  let y_sym := dec.layer_evaluations_sym.getD i 0
  let domain_size := domain_0_size >>> i
  let current_query_idx_in_layer := query_idx % domain_size
  let g_i := generator ^ (2 ^ i)
  let x := g_i ^ current_query_idx_in_layer
  let x_inv := x⁻¹
  let two_inv : F := (2 : F)⁻¹
  let f_even := (y + y_sym) * two_inv
  let f_odd := (y - y_sym) * two_inv * x_inv
  f_even + betas.getD i 0 * f_odd

/-- The backwards loop of `Verifier::verify_folding_consistency`:
`count` layers remain; the next processed layer index is `count - 1`. -/
def folding_check_loop (generator : F) (domain_0_size : Nat) (query_idx : Nat)
    (dec : QueryDecommitment) (betas : List F) :
    Nat → F → Except FriError Unit
  | 0, _ => .ok ()
  | j + 1, claimed_child =>
    let expected := expected_child_evaluation generator domain_0_size dec betas query_idx j
    if claimed_child ≠ expected then
      .error (.InconsistentFolding j expected claimed_child)
    else
      folding_check_loop generator domain_0_size query_idx dec betas j
        (dec.layer_evaluations.getD j 0)

/-- `Verifier::verify_folding_consistency`: iterate from the second-to-last
layer down to layer 0, starting from the claimed last-layer value. -/
def verify_folding_consistency (generator : F) (params : FriParameters) (proof : FriProof)
    (query_idx : Nat) (dec : QueryDecommitment) (betas : List F) : Except FriError Unit :=
  folding_check_loop generator params.domain_0_size query_idx dec betas
    (proof.layer_commitments.length - 1) proof.last_layer_value

/-- `Verifier::verify_query`. -/
def verify_query (generator : F) (params : FriParameters) (proof : FriProof)
    (query_idx : Nat) (betas : List F) (dec : QueryDecommitment) : Except FriError Unit :=
  match verify_merkle_paths params proof query_idx dec with
  | .error e => .error e
  | .ok () => verify_folding_consistency generator params proof query_idx dec betas

/-- The loop of `Verifier::verify` over the sampled queries, paired with the
corresponding decommitments. -/
def verify_queries_loop (generator : F) (params : FriParameters) (proof : FriProof)
    (betas : List F) : List (Nat × QueryDecommitment) → Except FriError Unit
  | [] => .ok ()
  | (query_idx, dec) :: rest =>
    match verify_query generator params proof query_idx betas dec with
    | .error e => .error e
    | .ok () => verify_queries_loop generator params proof betas rest

/-- `Verifier::verify`.  The external primitive-root provider that the Rust
verifier queries for the domain generator is modelled by the parameter
`generator` (the provider is deterministic, so both parties receive the same
value); the transcript starts from `Verifier::new`, seeded with the
protocol id. -/
def verify (generator : F) (params : FriParameters) (proof : FriProof) :
    Except FriError Unit :=
  let ((betas, query_indices), _t) := reconstruct_challenges params Transcript.new proof
  verify_queries_loop generator params proof betas
    (query_indices.zip proof.query_decommitments)

end Verifier

-- ---------------------------------------------------------------------------
-- Merkle-tree lemmas: height computation, path completeness, and position
-- binding under the ideal-hash model.
-- ---------------------------------------------------------------------------

theorem log2Aux_pow (fuel : Nat) : ∀ k : Nat, 2 ^ k ≤ fuel → log2Aux fuel (2 ^ k) = k := by
  induction fuel with
  | zero =>
    intro k hk
    have : 0 < 2 ^ k := by positivity
    omega
  | succ n ih =>
    intro k hk
    cases k with
    | zero => simp [log2Aux]
    | succ j =>
      have h1 : ¬ (2 ^ (j + 1) ≤ 1) := by
        have : 2 ≤ 2 ^ (j + 1) := Nat.one_lt_two_pow_iff.mpr (by omega)
        omega
      have hdiv : 2 ^ (j + 1) / 2 = 2 ^ j := by
        rw [Nat.pow_succ, Nat.mul_div_cancel]
        omega
      have hfuel : 2 ^ j ≤ n := by
        have h2 : 2 ^ j < 2 ^ (j + 1) := Nat.pow_lt_pow_right (by omega) (by omega)
        have h3 : 0 < 2 ^ j := by positivity
        omega
      rw [log2Aux]
      simp only [h1, if_false]
      rw [hdiv, ih j hfuel]

theorem myLog2_pow (k : Nat) : myLog2 (2 ^ k) = k :=
  log2Aux_pow (2 ^ k) k le_rfl

/-- The second component of the path fold divides the index by `2^|path|`. -/
theorem foldPath_snd (path : List Digest) : ∀ (d : Digest) (m : Nat),
    (path.foldl verifyPathStep (d, m)).2 = m / 2 ^ path.length := by
  induction path with
  | nil => intro d m; simp
  | cons s rest ih =>
    intro d m
    rw [List.foldl_cons]
    rcases h : verifyPathStep (d, m) s with ⟨d1, m1⟩
    have hm1 : m1 = m / 2 := by
      simp [verifyPathStep] at h
      omega
    rw [ih d1 m1, hm1, List.length_cons, Nat.div_div_eq_div_mul]
    congr 1
    rw [Nat.pow_succ]
    ring

theorem getD_take {l : List F} {n i : Nat} (h : i < n) (hn : n ≤ l.length) :
    (l.take n).getD i 0 = l.getD i 0 := by
  rw [List.getD_eq_getElem _ _ (by simp; omega), List.getD_eq_getElem _ _ (by omega)]
  rw [List.getElem_take]

theorem getD_drop {l : List F} {n i : Nat} (h : n + i < l.length) :
    (l.drop n).getD i 0 = l.getD (n + i) 0 := by
  rw [List.getD_eq_getElem _ _ (by simp; omega), List.getD_eq_getElem _ _ (by omega)]
  rw [List.getElem_drop]

/-- Folding the honest authentication path of position `m % 2^k` starting at
running index `m` recomputes the perfect-tree root (and leaves `m / 2^k` as
the final running index). -/
theorem foldPath_spec : ∀ (k : Nat) (l : List F) (m : Nat), l.length = 2 ^ k →
    (pathPow k l (m % 2 ^ k)).foldl verifyPathStep
        (Digest.leaf (l.getD (m % 2 ^ k) 0), m) = (rootPow k l, m / 2 ^ k) := by
  intro k
  induction k with
  | zero =>
    intro l m hl
    simp [pathPow, rootPow, Nat.mod_one]
  | succ k ih =>
    intro l m hl
    have htake : (l.take (2 ^ k)).length = 2 ^ k := by
      rw [List.length_take, hl, Nat.pow_succ]
      omega
    have hdrop : (l.drop (2 ^ k)).length = 2 ^ k := by
      rw [List.length_drop, hl, Nat.pow_succ]
      omega
    have hmm : m % 2 ^ k = (m % 2 ^ (k + 1)) % 2 ^ k :=
      (Nat.mod_mod_of_dvd m ⟨2, by rw [Nat.pow_succ]⟩).symm
    have hbit : (m / 2 ^ k) % 2 = (m % 2 ^ (k + 1)) / 2 ^ k := by
      rw [Nat.div_mod_eq_mod_mul_div, ← Nat.pow_succ]
    have hposlt : m % 2 ^ (k + 1) < 2 ^ (k + 1) := Nat.mod_lt _ (by positivity)
    have hdivdiv : m / 2 ^ k / 2 = m / 2 ^ (k + 1) := by
      rw [Nat.div_div_eq_div_mul, ← Nat.pow_succ]
    by_cases hpos : m % 2 ^ (k + 1) < 2 ^ k
    · -- the position lies in the left subtree
      have hmk : m % 2 ^ k = m % 2 ^ (k + 1) := by
        rw [hmm, Nat.mod_eq_of_lt hpos]
      rw [pathPow]
      simp only [hpos, if_true]
      rw [List.foldl_append]
      have hval : l.getD (m % 2 ^ (k + 1)) 0 = (l.take (2 ^ k)).getD (m % 2 ^ k) 0 := by
        rw [hmk, getD_take hpos (by omega)]
      rw [hval, ← hmk, ih (l.take (2 ^ k)) m htake]
      have heven : (m / 2 ^ k) % 2 = 0 := by
        rw [hbit]
        exact Nat.div_eq_of_lt hpos
      simp only [List.foldl_cons, List.foldl_nil, verifyPathStep, heven]
      rw [rootPow]
      simp [hdivdiv]
    · -- the position lies in the right subtree
      have hge : 2 ^ k ≤ m % 2 ^ (k + 1) := by omega
      have hmk : m % 2 ^ k = m % 2 ^ (k + 1) - 2 ^ k := by
        rw [hmm]
        have h1 : m % 2 ^ (k + 1) - 2 ^ k < 2 ^ k := by
          have := hposlt
          rw [Nat.pow_succ] at this
          omega
        rw [Nat.mod_eq_sub_mod hge, Nat.mod_eq_of_lt h1]
      rw [pathPow]
      simp only [hpos, if_false]
      rw [List.foldl_append]
      have hval : l.getD (m % 2 ^ (k + 1)) 0 = (l.drop (2 ^ k)).getD (m % 2 ^ k) 0 := by
        rw [hmk, getD_drop (by omega)]
        congr 1
        omega
      rw [hval, ← hmk, ih (l.drop (2 ^ k)) m hdrop]
      have hodd : (m / 2 ^ k) % 2 = 1 := by
        rw [hbit]
        have h1 : m % 2 ^ (k + 1) / 2 ^ k < 2 := by
          apply Nat.div_lt_of_lt_mul
          rw [← Nat.pow_succ]
          exact hposlt
        have h2 : 1 ≤ m % 2 ^ (k + 1) / 2 ^ k := by
          rw [Nat.le_div_iff_mul_le (by positivity)]
          omega
        omega
      simp only [List.foldl_cons, List.foldl_nil, verifyPathStep, hodd]
      rw [rootPow]
      simp [hdivdiv]

/-- Completeness: the honest path of an in-range position verifies. -/
theorem verifyPath_complete (k : Nat) (l : List F) (pos : Nat)
    (hl : l.length = 2 ^ k) (hpos : pos < 2 ^ k) :
    verifyPath (rootPow k l) pos (l.getD pos 0) (pathPow k l pos) = true := by
  have h := foldPath_spec k l pos hl
  rw [Nat.mod_eq_of_lt hpos] at h
  rw [verifyPath, h]
  simp

/-- Minimal leaf depth of a digest term. -/
def Digest.minD : Digest → Nat
  | .leaf _ => 0
  | .node l r => min l.minD r.minD + 1

/-- Maximal leaf depth of a digest term. -/
def Digest.maxD : Digest → Nat
  | .leaf _ => 0
  | .node l r => max l.maxD r.maxD + 1

theorem rootPow_minD (k : Nat) : ∀ l : List F, (rootPow k l).minD = k := by
  induction k with
  | zero => intro l; rfl
  | succ k ih =>
    intro l
    show min (rootPow k (l.take (2 ^ k))).minD (rootPow k (l.drop (2 ^ k))).minD + 1 = k + 1
    rw [ih, ih, min_self]

theorem rootPow_maxD (k : Nat) : ∀ l : List F, (rootPow k l).maxD = k := by
  induction k with
  | zero => intro l; rfl
  | succ k ih =>
    intro l
    show max (rootPow k (l.take (2 ^ k))).maxD (rootPow k (l.drop (2 ^ k))).maxD + 1 = k + 1
    rw [ih, ih, max_self]

theorem foldPath_minD (path : List Digest) : ∀ (d : Digest) (m : Nat),
    ((path.foldl verifyPathStep (d, m)).1).minD ≤ path.length + d.minD := by
  induction path with
  | nil => intro d m; simp
  | cons s rest ih =>
    intro d m
    rw [List.foldl_cons]
    rcases h : verifyPathStep (d, m) s with ⟨d1, m1⟩
    have hd1 : d1.minD ≤ d.minD + 1 := by
      simp only [verifyPathStep] at h
      by_cases hp : m % 2 = 0 <;> simp [hp] at h <;> rw [← h.1] <;>
        simp [Digest.minD] <;> omega
    have := ih d1 m1
    simp only [List.length_cons]
    omega

theorem foldPath_maxD (path : List Digest) : ∀ (d : Digest) (m : Nat),
    path.length + d.maxD ≤ ((path.foldl verifyPathStep (d, m)).1).maxD := by
  induction path with
  | nil => intro d m; simp
  | cons s rest ih =>
    intro d m
    rw [List.foldl_cons]
    rcases h : verifyPathStep (d, m) s with ⟨d1, m1⟩
    have hd1 : d.maxD + 1 ≤ d1.maxD := by
      simp only [verifyPathStep] at h
      by_cases hp : m % 2 = 0 <;> simp [hp] at h <;> rw [← h.1] <;>
        simp [Digest.maxD] <;> omega
    have := ih d1 m1
    simp only [List.length_cons]
    omega

/-- Position binding (ideal hash): any path that makes a value verify at
running index `m` against the perfect-tree root of `l` forces that value to
be the committed leaf at position `m % 2^k`. -/
theorem verifyPath_binding : ∀ (k : Nat) (l : List F) (path : List Digest) (v : F) (m : Nat),
    l.length = 2 ^ k →
    (path.foldl verifyPathStep (Digest.leaf v, m)).1 = rootPow k l →
    l.getD (m % 2 ^ k) 0 = v := by
  intro k
  induction k with
  | zero =>
    intro l path v m hl hfold
    have hmax := foldPath_maxD path (Digest.leaf v) m
    rw [hfold, rootPow_maxD] at hmax
    have hleafD : (Digest.leaf v).maxD = 0 := rfl
    have hpath : path.length = 0 := by omega
    rw [List.eq_nil_of_length_eq_zero hpath] at hfold
    simp only [List.foldl_nil] at hfold
    simp only [pow_zero, Nat.mod_one]
    rw [rootPow] at hfold
    exact (Digest.leaf.injEq _ _).mp hfold.symm
  | succ k ih =>
    intro l path v m hl hfold
    have htake : (l.take (2 ^ k)).length = 2 ^ k := by
      rw [List.length_take, hl, Nat.pow_succ]
      omega
    have hdrop : (l.drop (2 ^ k)).length = 2 ^ k := by
      rw [List.length_drop, hl, Nat.pow_succ]
      omega
    rcases List.eq_nil_or_concat path with rfl | ⟨path0, s, rfl⟩
    · simp only [List.foldl_nil] at hfold
      rw [rootPow] at hfold
      exact absurd hfold (by simp)
    · rw [List.concat_eq_append, List.foldl_append] at hfold
      rcases hfd : (path0.foldl verifyPathStep (Digest.leaf v, m)) with ⟨d, j⟩
      rw [hfd] at hfold
      simp only [List.foldl_cons, List.foldl_nil, verifyPathStep] at hfold
      have hj : j = m / 2 ^ path0.length := by
        have := foldPath_snd path0 (Digest.leaf v) m
        rw [hfd] at this
        exact this
      have hmin := foldPath_minD path0 (Digest.leaf v) m
      have hmax := foldPath_maxD path0 (Digest.leaf v) m
      rw [hfd] at hmin hmax
      simp only [Digest.minD, Digest.maxD, Nat.add_zero] at hmin hmax
      have hbit : (m / 2 ^ k) % 2 = (m % 2 ^ (k + 1)) / 2 ^ k := by
        rw [Nat.div_mod_eq_mod_mul_div, ← Nat.pow_succ]
      have hmm : m % 2 ^ k = (m % 2 ^ (k + 1)) % 2 ^ k :=
        (Nat.mod_mod_of_dvd m ⟨2, by rw [Nat.pow_succ]⟩).symm
      have hposlt : m % 2 ^ (k + 1) < 2 ^ (k + 1) := Nat.mod_lt _ (by positivity)
      by_cases hpar : j % 2 = 0
      · simp only [hpar, if_true] at hfold
        rw [rootPow] at hfold
        have hinj := (Digest.node.injEq _ _ _ _).mp hfold
        have hlen : path0.length = k := by
          have h1 : d.minD = k := by rw [hinj.1, rootPow_minD]
          have h2 : d.maxD = k := by rw [hinj.1, rootPow_maxD]
          omega
        have heven : (m % 2 ^ (k + 1)) / 2 ^ k = 0 := by
          rw [← hbit, ← hlen, ← hj]
          exact hpar
        have hlt : m % 2 ^ (k + 1) < 2 ^ k := (Nat.div_eq_zero_iff (by positivity)).mp heven
        have hmk : m % 2 ^ (k + 1) = m % 2 ^ k := by
          rw [hmm, Nat.mod_eq_of_lt hlt]
        have hroot : (path0.foldl verifyPathStep (Digest.leaf v, m)).1 =
            rootPow k (l.take (2 ^ k)) := by
          rw [hfd]
          exact hinj.1
        have := ih (l.take (2 ^ k)) path0 v m htake hroot
        rw [hmk, ← this, getD_take (by omega) (by omega)]
      · simp only [hpar, if_false] at hfold
        rw [rootPow] at hfold
        have hinj := (Digest.node.injEq _ _ _ _).mp hfold
        have hlen : path0.length = k := by
          have h1 : d.minD = k := by rw [hinj.2, rootPow_minD]
          have h2 : d.maxD = k := by rw [hinj.2, rootPow_maxD]
          omega
        have hodd : (m % 2 ^ (k + 1)) / 2 ^ k = 1 := by
          rw [← hbit, ← hlen, ← hj]
          omega
        have hmk : m % 2 ^ (k + 1) = 2 ^ k + m % 2 ^ k := by
          have hd := Nat.div_add_mod (m % 2 ^ (k + 1)) (2 ^ k)
          rw [hodd, Nat.mul_one] at hd
          rw [hmm]
          omega
        have hroot : (path0.foldl verifyPathStep (Digest.leaf v, m)).1 =
            rootPow k (l.drop (2 ^ k)) := by
          rw [hfd]
          exact hinj.2
        have := ih (l.drop (2 ^ k)) path0 v m hdrop hroot
        rw [hmk, ← this, getD_drop (by omega)]

-- ---------------------------------------------------------------------------
-- Structural description of the prover's fold phase, and its equivalence to
-- the fuel-based loop embedding.
-- ---------------------------------------------------------------------------

/-- Layer access with the empty layer as default (all embedded accesses are
proved in range). -/
def nthLayer (layers : List FriLayer) (j : Nat) : FriLayer :=
  layers.getD j ⟨[], ⟨[]⟩, []⟩

/-- Structural (fuel-free) description of the fold phase on a layer whose
evaluation vector has length `2^k`: returns the layer list, the sampled
betas, the last-layer value and the final transcript. -/
def foldSpec : Nat → List F → List F → Transcript → List FriLayer × List F × F × Transcript
  | 0, evals, domain, t =>
    ([⟨evals, ⟨evals⟩, domain⟩], [], evals.getD 0 0,
      t.append_bytes (serializeFE (evals.getD 0 0)))
  | k + 1, evals, domain, t =>
    let beta := (t.sample_field_element).1
    let t1 := (t.sample_field_element).2
    let ne := (fold_evaluations evals domain beta).1
    let nd := (fold_evaluations evals domain beta).2
    let t2 := t1.append_bytes (MerkleTreeM.root ⟨ne⟩).encode
    (⟨evals, ⟨evals⟩, domain⟩ :: (foldSpec k ne nd t2).1,
      beta :: (foldSpec k ne nd t2).2.1,
      (foldSpec k ne nd t2).2.2.1,
      (foldSpec k ne nd t2).2.2.2)

theorem one_lt_two_pow_succ (k : Nat) : 1 < 2 ^ (k + 1) := by
  have : 2 ^ 1 ≤ 2 ^ (k + 1) := Nat.pow_le_pow_right (by omega) (by omega)
  omega

/-- The fuel-based `fold_loop` computes `foldSpec` whenever the fuel exceeds
the number of folding rounds. -/
theorem fold_loop_eq_foldSpec : ∀ (k fuel : Nat) (t : Transcript) (acc : List FriLayer)
    (evals domain : List F),
    evals.length = 2 ^ k → domain.length = 2 ^ k → k + 1 ≤ fuel →
    Prover.fold_loop fuel t acc ⟨evals, ⟨evals⟩, domain⟩ =
      .ok (acc ++ (foldSpec k evals domain t).1,
        (foldSpec k evals domain t).2.2.1, (foldSpec k evals domain t).2.2.2) := by
  intro k
  induction k with
  | zero =>
    intro fuel t acc evals domain hlen hdom hfuel
    cases fuel with
    | zero => omega
    | succ f =>
      rw [Prover.fold_loop]
      have h1 : evals.length ≤ 1 := by rw [hlen, pow_zero]
      simp only [h1, if_true, foldSpec]
  | succ k ih =>
    intro fuel t acc evals domain hlen hdom hfuel
    cases fuel with
    | zero => omega
    | succ f =>
      rw [Prover.fold_loop]
      have h1 : ¬ (evals.length ≤ 1) := by
        rw [hlen]
        have := one_lt_two_pow_succ k
        omega
      simp only [h1, if_false]
      rcases hsample : t.sample_field_element with ⟨beta, t1⟩
      have hne : (fold_evaluations evals domain beta).1.length = 2 ^ k := by
        rw [fold_evaluations_fst_length, hdom, Nat.pow_succ]
        omega
      have hnd : (fold_evaluations evals domain beta).2.length = 2 ^ k := by
        rw [fold_evaluations_snd_length _ _ _ ⟨2 ^ k, by rw [hdom, Nat.pow_succ]; ring⟩,
          hdom, Nat.pow_succ]
        omega
      have hbuild : merkleBuild (fold_evaluations evals domain beta).1 =
          some ⟨(fold_evaluations evals domain beta).1⟩ := by
        rw [merkleBuild, if_neg]
        intro hempty
        rw [List.isEmpty_iff] at hempty
        rw [hempty] at hne
        have : 0 < 2 ^ k := by positivity
        simp at hne
        omega
      simp only [hbuild]
      rw [ih f _ _ _ _ hne hnd (by omega)]
      rw [foldSpec]
      simp only [hsample]
      rw [List.append_assoc]
      rfl

theorem nthLayer_cons_zero (l : FriLayer) (ls : List FriLayer) : nthLayer (l :: ls) 0 = l := rfl

theorem nthLayer_cons_succ (l : FriLayer) (ls : List FriLayer) (j : Nat) :
    nthLayer (l :: ls) (j + 1) = nthLayer ls j := rfl

theorem foldSpec_one_fst (k : Nat) (evals domain : List F) (t : Transcript) :
    (foldSpec (k + 1) evals domain t).1 =
      ⟨evals, ⟨evals⟩, domain⟩ ::
        (foldSpec k (fold_evaluations evals domain (t.sample_field_element).1).1
          (fold_evaluations evals domain (t.sample_field_element).1).2
          (((t.sample_field_element).2).append_bytes
            (MerkleTreeM.root
              ⟨(fold_evaluations evals domain (t.sample_field_element).1).1⟩).encode)).1 := rfl

theorem foldSpec_one_betas (k : Nat) (evals domain : List F) (t : Transcript) :
    (foldSpec (k + 1) evals domain t).2.1 =
      (t.sample_field_element).1 ::
        (foldSpec k (fold_evaluations evals domain (t.sample_field_element).1).1
          (fold_evaluations evals domain (t.sample_field_element).1).2
          (((t.sample_field_element).2).append_bytes
            (MerkleTreeM.root
              ⟨(fold_evaluations evals domain (t.sample_field_element).1).1⟩).encode)).2.1 := rfl

theorem foldSpec_one_last (k : Nat) (evals domain : List F) (t : Transcript) :
    (foldSpec (k + 1) evals domain t).2.2.1 =
      (foldSpec k (fold_evaluations evals domain (t.sample_field_element).1).1
        (fold_evaluations evals domain (t.sample_field_element).1).2
        (((t.sample_field_element).2).append_bytes
          (MerkleTreeM.root
            ⟨(fold_evaluations evals domain (t.sample_field_element).1).1⟩).encode)).2.2.1 := rfl

theorem foldSpec_zero (evals domain : List F) (t : Transcript) :
    foldSpec 0 evals domain t =
      ([⟨evals, ⟨evals⟩, domain⟩], [], evals.getD 0 0,
        t.append_bytes (serializeFE (evals.getD 0 0))) := rfl

theorem query_decommitment_cons (layer : FriLayer) (rest : List FriLayer) (q : Nat) :
    Prover.query_decommitment (layer :: rest) q =
      { layer_evaluations := layer.evaluations.getD q 0 ::
          (Prover.query_decommitment rest
            (q % max (layer.domain.length / 2) 1)).layer_evaluations
        layer_auth_paths := layer.merkle_tree.get_proof_by_pos q ::
          (Prover.query_decommitment rest
            (q % max (layer.domain.length / 2) 1)).layer_auth_paths
        layer_evaluations_sym := layer.evaluations.getD
            ((q + layer.domain.length / 2) % layer.domain.length) 0 ::
          (Prover.query_decommitment rest
            (q % max (layer.domain.length / 2) 1)).layer_evaluations_sym
        layer_auth_paths_sym := layer.merkle_tree.get_proof_by_pos
            ((q + layer.domain.length / 2) % layer.domain.length) ::
          (Prover.query_decommitment rest
            (q % max (layer.domain.length / 2) 1)).layer_auth_paths_sym } := rfl

/-- Structural facts of the folding chain produced by `foldSpec`: layer
sizes, layer domains, the fold relation between consecutive layers, the
last-layer value, and the contents of every query decommitment. -/
theorem foldSpec_facts : ∀ (k : Nat) (g : F) (evals domain : List F) (t : Transcript),
    evals.length = 2 ^ k →
    domain = (List.range (2 ^ k)).map (fun i => g ^ i) →
    (foldSpec k evals domain t).1.length = k + 1 ∧
    (foldSpec k evals domain t).2.1.length = k ∧
    (∀ j, j ≤ k →
      (nthLayer (foldSpec k evals domain t).1 j).evaluations.length = 2 ^ (k - j) ∧
      (nthLayer (foldSpec k evals domain t).1 j).domain =
        (List.range (2 ^ (k - j))).map (fun i => (g ^ 2 ^ j) ^ i) ∧
      (nthLayer (foldSpec k evals domain t).1 j).merkle_tree =
        ⟨(nthLayer (foldSpec k evals domain t).1 j).evaluations⟩) ∧
    (∀ j, j < k →
      (nthLayer (foldSpec k evals domain t).1 (j + 1)).evaluations =
        (fold_evaluations (nthLayer (foldSpec k evals domain t).1 j).evaluations
          (nthLayer (foldSpec k evals domain t).1 j).domain
          ((foldSpec k evals domain t).2.1.getD j 0)).1) ∧
    ((foldSpec k evals domain t).2.2.1 =
      (nthLayer (foldSpec k evals domain t).1 k).evaluations.getD 0 0) ∧
    (∀ q, q < 2 ^ k → ∀ j, j ≤ k →
      (Prover.query_decommitment (foldSpec k evals domain t).1 q).layer_evaluations.getD j 0 =
        (nthLayer (foldSpec k evals domain t).1 j).evaluations.getD (q % 2 ^ (k - j)) 0 ∧
      (Prover.query_decommitment (foldSpec k evals domain t).1
          q).layer_evaluations_sym.getD j 0 =
        (nthLayer (foldSpec k evals domain t).1 j).evaluations.getD
          ((q % 2 ^ (k - j) + 2 ^ (k - j) / 2) % 2 ^ (k - j)) 0 ∧
      (Prover.query_decommitment (foldSpec k evals domain t).1 q).layer_auth_paths.getD j [] =
        pathPow (k - j) (nthLayer (foldSpec k evals domain t).1 j).evaluations
          (q % 2 ^ (k - j)) ∧
      (Prover.query_decommitment (foldSpec k evals domain t).1
          q).layer_auth_paths_sym.getD j [] =
        pathPow (k - j) (nthLayer (foldSpec k evals domain t).1 j).evaluations
          ((q % 2 ^ (k - j) + 2 ^ (k - j) / 2) % 2 ^ (k - j))) := by
  intro k
  induction k with
  | zero =>
    intro g evals domain t hlen hdom
    have hd1 : domain.length = 1 := by rw [hdom]; simp
    refine ⟨rfl, rfl, ?_, ?_, rfl, ?_⟩
    · intro j hj
      interval_cases j
      refine ⟨by simpa using hlen, ?_, rfl⟩
      rw [foldSpec_zero, nthLayer_cons_zero]
      rw [hdom]
      simp
    · intro j hj
      omega
    · intro q hq j hj
      interval_cases j
      interval_cases q
      rw [foldSpec_zero]
      rw [query_decommitment_cons]
      have hml : myLog2 ((⟨evals, ⟨evals⟩, domain⟩ : FriLayer).evaluations.length) = 0 := by
        show myLog2 evals.length = 0
        rw [hlen]
        exact myLog2_pow 0
      refine ⟨rfl, ?_, ?_, ?_⟩
      · simp only [List.getD_cons_zero, nthLayer_cons_zero, hd1]
        norm_num
      · simp only [List.getD_cons_zero, nthLayer_cons_zero]
        show MerkleTreeM.get_proof_by_pos ⟨evals⟩ 0 = _
        rw [MerkleTreeM.get_proof_by_pos]
        show pathPow (myLog2 evals.length) evals 0 = _
        rw [hlen, myLog2_pow]
        norm_num
      · simp only [List.getD_cons_zero, nthLayer_cons_zero, hd1]
        show MerkleTreeM.get_proof_by_pos ⟨evals⟩ ((0 + 1 / 2) % 1) = _
        rw [MerkleTreeM.get_proof_by_pos]
        show pathPow (myLog2 evals.length) evals ((0 + 1 / 2) % 1) = _
        rw [hlen, myLog2_pow]
        norm_num
  | succ k ih =>
    intro g evals domain t hlen hdom
    have hdlen : domain.length = 2 ^ (k + 1) := by rw [hdom]; simp
    set beta := (t.sample_field_element).1 with hbeta
    set t1 := (t.sample_field_element).2 with ht1
    set ne := (fold_evaluations evals domain beta).1 with hne
    set nd := (fold_evaluations evals domain beta).2 with hnd
    set t2 := t1.append_bytes (MerkleTreeM.root ⟨ne⟩).encode with ht2
    have hnelen : ne.length = 2 ^ k := by
      rw [hne, fold_evaluations_fst_length, hdlen, Nat.pow_succ]
      omega
    have hddvd : 2 ∣ domain.length := ⟨2 ^ k, by rw [hdlen, Nat.pow_succ]; ring⟩
    have hnddom : nd = (List.range (2 ^ k)).map (fun i => (g ^ 2) ^ i) := by
      rw [hnd, fold_evaluations_snd_def, hdom]
      simp only [List.length_map, List.length_range]
      have hhalf : 2 ^ (k + 1) / 2 = 2 ^ k := by rw [Nat.pow_succ]; omega
      rw [hhalf, ← List.map_take, List.take_range]
      have hmin : min (2 ^ k) (2 ^ (k + 1)) = 2 ^ k := by
        have : (2:Nat) ^ k ≤ 2 ^ (k + 1) := Nat.pow_le_pow_right (by omega) (by omega)
        omega
      rw [hmin, List.map_map]
      apply List.map_congr_left
      intro i hi
      show g ^ i * g ^ i = (g ^ 2) ^ i
      rw [← pow_add, ← pow_mul]
      congr 1
      ring
    have hIH := ih (g ^ 2) ne nd t2 hnelen hnddom
    have hfst : (foldSpec (k + 1) evals domain t).1 =
        ⟨evals, ⟨evals⟩, domain⟩ :: (foldSpec k ne nd t2).1 := foldSpec_one_fst k evals domain t
    have hbetas : (foldSpec (k + 1) evals domain t).2.1 =
        beta :: (foldSpec k ne nd t2).2.1 := foldSpec_one_betas k evals domain t
    have hlast : (foldSpec (k + 1) evals domain t).2.2.1 =
        (foldSpec k ne nd t2).2.2.1 := foldSpec_one_last k evals domain t
    obtain ⟨ih1, ih2, ih3, ih4, ih5, ih6⟩ := hIH
    refine ⟨?_, ?_, ?_, ?_, ?_, ?_⟩
    · rw [hfst, List.length_cons, ih1]
    · rw [hbetas, List.length_cons, ih2]
    · intro j hj
      cases j with
      | zero =>
        rw [hfst, nthLayer_cons_zero]
        refine ⟨by simpa using hlen, ?_, rfl⟩
        rw [hdom]
        simp [pow_one]
      | succ j =>
        rw [hfst, nthLayer_cons_succ]
        have hexp : k + 1 - (j + 1) = k - j := by omega
        rw [hexp]
        have := ih3 j (by omega)
        refine ⟨this.1, ?_, this.2.2⟩
        rw [this.2.1]
        have hgp : (g ^ 2) ^ 2 ^ j = g ^ 2 ^ (j + 1) := by
          rw [← pow_mul]
          congr 1
          rw [Nat.pow_succ]
          ring
        rw [hgp]
    · intro j hj
      cases j with
      | zero =>
        rw [hfst, hbetas, nthLayer_cons_succ, nthLayer_cons_zero]
        simp only [List.getD_cons_zero]
        have hhead : nthLayer (foldSpec k ne nd t2).1 0 = ⟨ne, ⟨ne⟩, nd⟩ := by
          cases k with
          | zero => rfl
          | succ m => rfl
        rw [hhead]
      | succ j =>
        rw [hfst, hbetas, nthLayer_cons_succ, nthLayer_cons_succ]
        simp only [List.getD_cons_succ]
        exact ih4 j (by omega)
    · rw [hfst, hlast, nthLayer_cons_succ]
      exact ih5
    · intro q hq j hj
      have hq2k : q % 2 ^ k < 2 ^ k := Nat.mod_lt _ (by positivity)
      have hmax : max (domain.length / 2) 1 = 2 ^ k := by
        rw [hdlen, Nat.pow_succ]
        have : 0 < 2 ^ k := by positivity
        omega
      rw [hfst, query_decommitment_cons]
      cases j with
      | zero =>
        have hq' : q % 2 ^ (k + 1 - 0) = q := by
          simpa using Nat.mod_eq_of_lt hq
        have hsym : (q % 2 ^ (k + 1 - 0) + 2 ^ (k + 1 - 0) / 2) % 2 ^ (k + 1 - 0) =
            (q + domain.length / 2) % domain.length := by
          rw [hq', hdlen]
          simp
        have hml : myLog2 evals.length = k + 1 := by rw [hlen, myLog2_pow]
        refine ⟨?_, ?_, ?_, ?_⟩
        · simp only [List.getD_cons_zero, nthLayer_cons_zero, hq']
        · simp only [List.getD_cons_zero, nthLayer_cons_zero, hsym]
        · simp only [List.getD_cons_zero, nthLayer_cons_zero]
          show MerkleTreeM.get_proof_by_pos ⟨evals⟩ q = _
          rw [MerkleTreeM.get_proof_by_pos]
          show pathPow (myLog2 evals.length) evals q = _
          rw [hml, hq']
          norm_num
        · simp only [List.getD_cons_zero, nthLayer_cons_zero]
          show MerkleTreeM.get_proof_by_pos ⟨evals⟩ ((q + domain.length / 2) % domain.length)
              = _
          rw [MerkleTreeM.get_proof_by_pos]
          show pathPow (myLog2 evals.length) evals
              ((q + domain.length / 2) % domain.length) = _
          rw [hml, hsym]
          norm_num
      | succ j =>
        have hj' : j ≤ k := by omega
        have hqmod : q % max (domain.length / 2) 1 = q % 2 ^ k := by rw [hmax]
        have hmm2 : (q % 2 ^ k) % 2 ^ (k - j) = q % 2 ^ (k - j) :=
          Nat.mod_mod_of_dvd q (pow_dvd_pow 2 (by omega))
        have := ih6 (q % 2 ^ k) hq2k j hj'
        rw [hmm2] at this
        have hexp : k + 1 - (j + 1) = k - j := by omega
        simp only [List.getD_cons_succ, nthLayer_cons_succ, hqmod, hexp]
        exact this

-- ---------------------------------------------------------------------------
-- Verifier-side lemmas: the recomputed folding value matches the kernel, the
-- Merkle loop accepts honest decommitments, and the transcript replay
-- reproduces the prover's challenges.
-- ---------------------------------------------------------------------------

/-- The value the verifier recomputes from `(y, y', x) = (e[q], e[(q+N/2) % N],
g^q)` equals the folding kernel's output at index `q % (N/2)`, for any `q < N`:
for `q` in the second half the kernel's pair is visited in swapped order at
the negated point, which leaves the folding expression unchanged. -/
theorem verifier_fold_matches_kernel (g beta : F) (evals : List F) (k q : Nat)
    (hq : q < 2 ^ (k + 1)) (hlen : evals.length = 2 ^ (k + 1))
    (hgneg : g ^ 2 ^ k = -1) :
    (evals.getD q 0 + evals.getD ((q + 2 ^ k) % 2 ^ (k + 1)) 0) * (2 : F)⁻¹
      + beta * ((evals.getD q 0 - evals.getD ((q + 2 ^ k) % 2 ^ (k + 1)) 0)
          * (2 : F)⁻¹ * (g ^ q)⁻¹)
    = (fold_evaluations evals ((List.range (2 ^ (k + 1))).map (fun j => g ^ j)) beta).1.getD
        (q % 2 ^ k) 0 := by
  have hdlen : ((List.range (2 ^ (k + 1))).map (fun j => g ^ j)).length = 2 ^ (k + 1) := by
    simp
  have hhalf : 2 ^ (k + 1) / 2 = 2 ^ k := by rw [Nat.pow_succ]; omega
  by_cases hcase : q < 2 ^ k
  · have hsym : (q + 2 ^ k) % 2 ^ (k + 1) = q + 2 ^ k := by
      apply Nat.mod_eq_of_lt
      rw [Nat.pow_succ]
      omega
    have hqmod : q % 2 ^ k = q := Nat.mod_eq_of_lt hcase
    rw [hsym, hqmod]
    rw [fold_evaluations_fst_getD _ _ _ _ (by rw [hdlen, hhalf]; omega)]
    rw [hdlen, hhalf]
    rw [getD_map_range _ _ _ _ (by omega : q < 2 ^ (k + 1))]
  · have hq' : q = (q - 2 ^ k) + 2 ^ k := by omega
    set r := q - 2 ^ k with hr
    have hrlt : r < 2 ^ k := by
      rw [hr]
      rw [Nat.pow_succ] at hq
      omega
    have hsym : (q + 2 ^ k) % 2 ^ (k + 1) = r := by
      have : q + 2 ^ k = r + 2 ^ (k + 1) := by rw [Nat.pow_succ]; omega
      rw [this, Nat.add_mod_right, Nat.mod_eq_of_lt (by rw [Nat.pow_succ]; omega)]
    have hqmod : q % 2 ^ k = r := by
      conv_lhs => rw [hq']
      rw [Nat.add_mod_right, Nat.mod_eq_of_lt hrlt]
    rw [hsym, hqmod]
    rw [fold_evaluations_fst_getD _ _ _ _ (by rw [hdlen, hhalf]; omega)]
    rw [hdlen, hhalf]
    rw [getD_map_range _ _ _ _ (by omega : r < 2 ^ (k + 1))]
    have hrq : r + 2 ^ k = q := by omega
    rw [hrq]
    have hgq : g ^ q = - g ^ r := by
      conv_lhs => rw [hq']
      rw [pow_add, hgneg]
      ring
    rw [hgq, inv_neg]
    ring

/-- `2^k >>> j = 2^(k-j)` for `j ≤ k`. -/
theorem shiftRight_pow (k j : Nat) (h : j ≤ k) : 2 ^ k >>> j = 2 ^ (k - j) := by
  rw [Nat.shiftRight_eq_div_pow]
  rw [Nat.pow_div h (by omega)]

/-- The verifier's recomputed child value at layer `j` equals the decommitted
value of layer `j+1`, on an honest chain. -/
theorem dec_expected_matches (k : Nat) (g : F) (evals domain : List F) (t : Transcript)
    (q j : Nat)
    (hlen : evals.length = 2 ^ k)
    (hdom : domain = (List.range (2 ^ k)).map (fun i => g ^ i))
    (hq : q < 2 ^ k) (hj : j < k)
    (hgneg : g ^ 2 ^ (k - 1) = -1) :
    Verifier.expected_child_evaluation g (2 ^ k)
        (Prover.query_decommitment (foldSpec k evals domain t).1 q)
        (foldSpec k evals domain t).2.1 q j =
      (Prover.query_decommitment (foldSpec k evals domain t).1 q).layer_evaluations.getD
        (j + 1) 0 := by
  obtain ⟨m1, m2, m3, m4, m5, m6⟩ := foldSpec_facts k g evals domain t hlen hdom
  obtain ⟨d1, d2, d3, d4⟩ := m6 q hq j (by omega)
  obtain ⟨e1, e2, e3, e4⟩ := m6 q hq (j + 1) (by omega)
  obtain ⟨l1, l2, l3⟩ := m3 j (by omega)
  obtain ⟨m, hm⟩ : ∃ m, k - j = m + 1 := ⟨k - j - 1, by omega⟩
  have hm2 : k - (j + 1) = m := by omega
  have hm3 : k - j - 1 = m := by omega
  rw [Verifier.expected_child_evaluation]
  rw [d1, d2, e1, hm, hm2]
  have hshift : 2 ^ k >>> j = 2 ^ (m + 1) := by
    rw [shiftRight_pow k j (by omega), hm]
  have hqq : q % 2 ^ (m + 1) < 2 ^ (m + 1) := Nat.mod_lt _ (by positivity)
  have hneg2 : (g ^ 2 ^ j) ^ 2 ^ m = -1 := by
    rw [← pow_mul, ← Nat.pow_add]
    have : j + m = k - 1 := by omega
    rw [this, hgneg]
  have hlenl : (nthLayer (foldSpec k evals domain t).1 j).evaluations.length = 2 ^ (m + 1) := by
    rw [l1, hm]
  have hkernel := verifier_fold_matches_kernel (g ^ 2 ^ j)
    ((foldSpec k evals domain t).2.1.getD j 0)
    (nthLayer (foldSpec k evals domain t).1 j).evaluations
    m (q % 2 ^ (m + 1)) hqq hlenl hneg2
  have hmodmod : (q % 2 ^ (m + 1)) % 2 ^ m = q % 2 ^ m :=
    Nat.mod_mod_of_dvd q (pow_dvd_pow 2 (by omega))
  rw [hmodmod] at hkernel
  have hhalf : 2 ^ (m + 1) / 2 = 2 ^ m := by
    rw [Nat.pow_succ]
    omega
  rw [hshift, hhalf]
  have hfold := m4 j hj
  rw [hfold, l2, hm]
  exact hkernel

/-- `verify_merkle_paths_loop` at layer counter `i+1` on a decommitment with
one extra leading entry per list equals the loop at counter `i`, halved
size, on the tail decommitment. -/
theorem merkle_loop_shift : ∀ (cs : List Digest) (N i q : Nat) (v vs : F)
    (p ps : List Digest) (dec : QueryDecommitment),
    Verifier.verify_merkle_paths_loop N cs (i + 1) q
      ⟨v :: dec.layer_evaluations, p :: dec.layer_auth_paths,
        vs :: dec.layer_evaluations_sym, ps :: dec.layer_auth_paths_sym⟩ =
    Verifier.verify_merkle_paths_loop (N / 2) cs i q dec := by
  intro cs
  induction cs with
  | nil => intro N i q v vs p ps dec; rfl
  | cons c rest ih =>
    intro N i q v vs p ps dec
    rw [Verifier.verify_merkle_paths_loop, Verifier.verify_merkle_paths_loop]
    have hsz : N >>> (i + 1) = (N / 2) >>> i := by
      rw [Nat.shiftRight_eq_div_pow, Nat.shiftRight_eq_div_pow, Nat.div_div_eq_div_mul]
      congr 1
      rw [Nat.pow_succ]
      ring
    simp only [List.getD_cons_succ, hsz]
    cases h1 : verifyPath c q (dec.layer_evaluations.getD i 0)
        (dec.layer_auth_paths.getD i []) with
    | false => simp [h1]
    | true =>
      simp only [h1]
      cases h2 : verifyPath c ((q + (N / 2) >>> i / 2) % ((N / 2) >>> i))
          (dec.layer_evaluations_sym.getD i 0) (dec.layer_auth_paths_sym.getD i []) with
      | false => simp [h2]
      | true =>
        simp only [h2, if_true]
        exact ih N (i + 1) _ v vs p ps dec

theorem foldSpec_fst_eq_cons (k : Nat) (e d : List F) (t : Transcript) :
    (foldSpec k e d t).1 = ⟨e, ⟨e⟩, d⟩ :: (foldSpec k e d t).1.tail := by
  cases k <;> rfl


/-- The Merkle-path loop accepts the honest decommitment on any chain of
layers whose sizes halve from `2^kk` and whose trees commit to their own
evaluations. -/
theorem merkle_loop_ok_chain : ∀ (layers : List FriLayer) (kk q : Nat),
    layers.length ≤ kk + 1 →
    (∀ j, j < layers.length →
      (nthLayer layers j).evaluations.length = 2 ^ (kk - j) ∧
      (nthLayer layers j).domain.length = 2 ^ (kk - j) ∧
      (nthLayer layers j).merkle_tree = ⟨(nthLayer layers j).evaluations⟩) →
    q < 2 ^ kk →
    Verifier.verify_merkle_paths_loop (2 ^ kk) (layers.map (fun l => l.merkle_tree.root)) 0 q
      (Prover.query_decommitment layers q) = .ok () := by
  intro layers
  induction layers with
  | nil => intro kk q hlen hfacts hq; rfl
  | cons layer rest ih =>
    intro kk q hlen hfacts hq
    obtain ⟨f1, f2, f3⟩ := hfacts 0 (by simp)
    rw [nthLayer_cons_zero] at f1 f2 f3
    simp only [Nat.sub_zero] at f1 f2
    rw [List.map_cons, query_decommitment_cons, Verifier.verify_merkle_paths_loop]
    simp only [Nat.shiftRight_zero, List.getD_cons_zero]
    rw [f2]
    have hroot : layer.merkle_tree.root = rootPow kk layer.evaluations := by
      rw [f3]
      show rootPow (myLog2 layer.evaluations.length) layer.evaluations = _
      rw [f1, myLog2_pow]
    have hpath : layer.merkle_tree.get_proof_by_pos q = pathPow kk layer.evaluations q := by
      rw [f3]
      show pathPow (myLog2 layer.evaluations.length) layer.evaluations q = _
      rw [f1, myLog2_pow]
    have hsymlt : (q + 2 ^ kk / 2) % 2 ^ kk < 2 ^ kk := Nat.mod_lt _ (by positivity)
    have hpath2 : layer.merkle_tree.get_proof_by_pos ((q + 2 ^ kk / 2) % 2 ^ kk) =
        pathPow kk layer.evaluations ((q + 2 ^ kk / 2) % 2 ^ kk) := by
      rw [f3]
      show pathPow (myLog2 layer.evaluations.length) layer.evaluations _ = _
      rw [f1, myLog2_pow]
    have hc1 : verifyPath layer.merkle_tree.root q (layer.evaluations.getD q 0)
        (layer.merkle_tree.get_proof_by_pos q) = true := by
      rw [hroot, hpath]
      exact verifyPath_complete kk _ q f1 hq
    have hc2 : verifyPath layer.merkle_tree.root ((q + 2 ^ kk / 2) % 2 ^ kk)
        (layer.evaluations.getD ((q + 2 ^ kk / 2) % 2 ^ kk) 0)
        (layer.merkle_tree.get_proof_by_pos ((q + 2 ^ kk / 2) % 2 ^ kk)) = true := by
      rw [hroot, hpath2]
      exact verifyPath_complete kk _ _ f1 hsymlt
    rw [hc1, hc2, if_pos rfl, if_pos rfl]
    rw [merkle_loop_shift]
    cases kk with
    | zero =>
      have hrest : rest = [] := by
        have : rest.length = 0 := by simpa using hlen
        exact List.eq_nil_of_length_eq_zero this
      rw [hrest]
      rfl
    | succ kp =>
      have hhalf : 2 ^ (kp + 1) / 2 = 2 ^ kp := by rw [Nat.pow_succ]; omega
      have hmax : max (2 ^ (kp + 1) / 2) 1 = 2 ^ kp := by
        rw [hhalf]
        have : 0 < 2 ^ kp := by positivity
        omega
      rw [hmax, hhalf]
      apply ih kp (q % 2 ^ kp) (by simp at hlen ⊢; omega) ?_ (Nat.mod_lt _ (by positivity))
      intro j hj
      have := hfacts (j + 1) (by simp; omega)
      rw [nthLayer_cons_succ] at this
      have hexp : kp + 1 - (j + 1) = kp - j := by omega
      rw [hexp] at this
      exact this

/-- The folding-consistency loop accepts the honest chain: by downward
iteration each recomputed child matches the decommitted next-layer value. -/
theorem folding_loop_ok (k : Nat) (g : F) (evals domain : List F) (t : Transcript) (q : Nat)
    (hlen : evals.length = 2 ^ k)
    (hdom : domain = (List.range (2 ^ k)).map (fun i => g ^ i))
    (hq : q < 2 ^ k)
    (hgneg : g ^ 2 ^ (k - 1) = -1) :
    ∀ j, j ≤ k →
    Verifier.folding_check_loop g (2 ^ k) q
      (Prover.query_decommitment (foldSpec k evals domain t).1 q)
      (foldSpec k evals domain t).2.1 j
      ((Prover.query_decommitment (foldSpec k evals domain t).1 q).layer_evaluations.getD j 0)
      = .ok () := by
  intro j
  induction j with
  | zero => intro _; rfl
  | succ j ihj =>
    intro hjk
    rw [Verifier.folding_check_loop]
    have hexp := dec_expected_matches k g evals domain t q j hlen hdom hq (by omega) hgneg
    rw [hexp]
    rw [if_neg (fun h => h rfl)]
    exact ihj (by omega)

/-- The verifier's beta reconstruction performs the same squeeze/absorb
sequence as the prover's fold phase, hence returns the same betas and leaves
the transcript in the state the prover had before absorbing the last-layer
value. -/
theorem reconstruct_betas_replay : ∀ (k : Nat) (evals domain : List F) (t : Transcript),
    ∃ tf : Transcript,
      Verifier.reconstructBetas
          (((foldSpec k evals domain t).1.map (fun l => l.merkle_tree.root)).drop 1) t =
        ((foldSpec k evals domain t).2.1, tf) ∧
      (foldSpec k evals domain t).2.2.2 =
        tf.append_bytes (serializeFE (foldSpec k evals domain t).2.2.1) := by
  intro k
  induction k with
  | zero =>
    intro evals domain t
    exact ⟨t, rfl, rfl⟩
  | succ k ih =>
    intro evals domain t
    set beta := (t.sample_field_element).1 with hbeta
    set t1 := (t.sample_field_element).2 with ht1
    set ne := (fold_evaluations evals domain beta).1 with hne
    set nd := (fold_evaluations evals domain beta).2 with hnd
    set t2 := t1.append_bytes (MerkleTreeM.root ⟨ne⟩).encode with ht2
    obtain ⟨tf, hrec, hlast⟩ := ih ne nd t2
    refine ⟨tf, ?_, ?_⟩
    · rw [foldSpec_one_fst, foldSpec_one_betas]
      rw [List.map_cons, List.drop_one, List.tail_cons]
      rw [foldSpec_fst_eq_cons k ne nd t2, List.map_cons]
      rw [Verifier.reconstructBetas]
      show (beta :: (Verifier.reconstructBetas _ t2).1, (Verifier.reconstructBetas _ t2).2) = _
      rw [foldSpec_fst_eq_cons k ne nd t2, List.map_cons, List.drop_one, List.tail_cons] at hrec
      rw [hrec]
    · rw [foldSpec_one_last]
      show (foldSpec k ne nd t2).2.2.2 = _
      exact hlast

theorem sampleIndices_length : ∀ (n max_value : Nat) (t : Transcript),
    (Prover.sampleIndices n max_value t).1.length = n := by
  intro n
  induction n with
  | zero => intro mv t; rfl
  | succ n ih =>
    intro mv t
    rw [Prover.sampleIndices]
    simp only [List.length_cons]
    rw [ih]

theorem sampleIndices_lt : ∀ (n max_value : Nat) (t : Transcript), 0 < max_value →
    ∀ i ∈ (Prover.sampleIndices n max_value t).1, i < max_value := by
  intro n
  induction n with
  | zero => intro mv t hmv i hi; exact absurd hi (by simp [Prover.sampleIndices])
  | succ n ih =>
    intro mv t hmv i hi
    rw [Prover.sampleIndices] at hi
    simp only [List.mem_cons] at hi
    rcases hi with rfl | hi
    · exact Nat.mod_lt _ hmv
    · exact ih mv _ hmv i hi

-- ---------------------------------------------------------------------------
-- The honest prover run, described structurally.
-- ---------------------------------------------------------------------------

/-- The honest fold chain of `Prover::prove` (initial transcript seeded with
the protocol id, commit-phase absorb, then the fold phase), described by
`foldSpec`; `k` is the base-2 logarithm of the initial domain size. -/
def proveChain (k : Nat) (poly : List F) (params : FriParameters) :
    List FriLayer × List F × F × Transcript :=
  let evaluations := params.domain_0.map (evalPoly poly)
  foldSpec k evaluations params.domain_0
    (Transcript.new.append_bytes (MerkleTreeM.root ⟨evaluations⟩).encode)

/-- The query indices the honest prover samples. -/
def proveIndices (k : Nat) (poly : List F) (params : FriParameters) : List Nat :=
  (Prover.sampleIndices params.num_queries params.domain_0_size
    (proveChain k poly params).2.2.2).1

/-- The proof the honest prover emits. -/
def proveProofSpec (k : Nat) (poly : List F) (params : FriParameters) : FriProof :=
  { layer_commitments := (proveChain k poly params).1.map (fun l => l.merkle_tree.root)
    last_layer_value := (proveChain k poly params).2.2.1
    query_decommitments := (proveIndices k poly params).map
      (Prover.query_decommitment (proveChain k poly params).1) }

theorem query_decommitment_lengths : ∀ (layers : List FriLayer) (q : Nat),
    (Prover.query_decommitment layers q).layer_evaluations.length = layers.length ∧
    (Prover.query_decommitment layers q).layer_auth_paths.length = layers.length ∧
    (Prover.query_decommitment layers q).layer_evaluations_sym.length = layers.length ∧
    (Prover.query_decommitment layers q).layer_auth_paths_sym.length = layers.length := by
  intro layers
  induction layers with
  | nil => intro q; exact ⟨rfl, rfl, rfl, rfl⟩
  | cons layer rest ih =>
    intro q
    rw [query_decommitment_cons]
    obtain ⟨h1, h2, h3, h4⟩ := ih (q % max (layer.domain.length / 2) 1)
    refine ⟨?_, ?_, ?_, ?_⟩ <;> simp [h1, h2, h3, h4]

/-- `Prover::prove` on a power-of-two domain succeeds and produces exactly
the structurally described proof. -/
theorem prove_eq_spec (g : F) (poly : List F) (d b nq k : Nat)
    (hN : (d + 1) * b = 2 ^ k) :
    Prover.prove poly (FriParameters.new g d b nq) =
      .ok (proveProofSpec k poly (FriParameters.new g d b nq)) := by
  set params := FriParameters.new g d b nq with hparams
  have hdom0 : params.domain_0 = (List.range (2 ^ k)).map (fun i => g ^ i) := by
    rw [hparams, FriParameters.new_domain_0, hN]
  have hsize : params.domain_0_size = 2 ^ k := by
    rw [hparams, FriParameters.new_size, hN]
  set evals := params.domain_0.map (evalPoly poly) with hevals
  have helen : evals.length = 2 ^ k := by
    rw [hevals, List.length_map, hdom0]
    simp
  have hdlen : params.domain_0.length = 2 ^ k := by rw [hdom0]; simp
  have hbuild : merkleBuild evals = some ⟨evals⟩ := by
    rw [merkleBuild, if_neg]
    intro hempty
    rw [List.isEmpty_iff] at hempty
    rw [hempty] at helen
    have : 0 < 2 ^ k := by positivity
    simp at helen
    omega
  have hfold := fold_loop_eq_foldSpec k (evals.length + 1)
    (Transcript.new.append_bytes (MerkleTreeM.root ⟨evals⟩).encode) [] evals params.domain_0
    helen hdlen (by rw [helen]; have := Nat.lt_two_pow k; omega)
  rw [Prover.prove]
  simp only [Prover.commit_phase, hbuild, Prover.fold_phase]
  rw [hfold]
  simp only [List.nil_append, Prover.query_phase]
  rfl

/-- `Verifier::reconstruct_challenges` on the honest proof returns exactly
the prover's betas and query indices, and ends in exactly the prover's final
transcript state (the model state is the full absorb/squeeze history, so
this is byte-for-byte agreement of the two transcripts). -/
theorem reconstruct_eq_spec (g : F) (poly : List F) (d b nq k : Nat) :
    Verifier.reconstruct_challenges (FriParameters.new g d b nq) Transcript.new
        (proveProofSpec k poly (FriParameters.new g d b nq)) =
      (((proveChain k poly (FriParameters.new g d b nq)).2.1,
        proveIndices k poly (FriParameters.new g d b nq)),
        (Prover.sampleIndices (FriParameters.new g d b nq).num_queries
          (FriParameters.new g d b nq).domain_0_size
          (proveChain k poly (FriParameters.new g d b nq)).2.2.2).2) := by
  set params := FriParameters.new g d b nq with hparams
  set evals := params.domain_0.map (evalPoly poly) with hevals
  set t1 := Transcript.new.append_bytes (MerkleTreeM.root ⟨evals⟩).encode with ht1
  have hchain : proveChain k poly params = foldSpec k evals params.domain_0 t1 := rfl
  obtain ⟨tf, hrec, hlast⟩ := reconstruct_betas_replay k evals params.domain_0 t1
  have hhead : (proveProofSpec k poly params).layer_commitments.getD 0 (Digest.leaf 0) =
      MerkleTreeM.root ⟨evals⟩ := by
    show ((proveChain k poly params).1.map (fun l => l.merkle_tree.root)).getD 0 _ = _
    rw [hchain, foldSpec_fst_eq_cons, List.map_cons, List.getD_cons_zero]
  have hdrop : (proveProofSpec k poly params).layer_commitments.drop 1 =
      ((foldSpec k evals params.domain_0 t1).1.map (fun l => l.merkle_tree.root)).drop 1 := rfl
  have hcount : (proveProofSpec k poly params).query_decommitments.length =
      params.num_queries := by
    show ((proveIndices k poly params).map _).length = _
    rw [List.length_map, proveIndices, sampleIndices_length]
  rw [Verifier.reconstruct_challenges]
  simp only [hhead, hdrop, hcount]
  rw [← ht1, hrec]
  have hser : (proveProofSpec k poly params).last_layer_value =
      (foldSpec k evals params.domain_0 t1).2.2.1 := rfl
  rw [hser]
  rw [← hlast]
  rw [hchain]
  rfl

/-- `Verifier::verify` accepts the honest proof. -/
theorem verify_ok (g : F) (poly : List F) (d b nq k : Nat)
    (hN : (d + 1) * b = 2 ^ (k + 1))
    (hgneg : g ^ 2 ^ k = -1) :
    Verifier.verify g (FriParameters.new g d b nq)
      (proveProofSpec (k + 1) poly (FriParameters.new g d b nq)) = .ok () := by
  set params := FriParameters.new g d b nq with hparams
  have hdom0 : params.domain_0 = (List.range (2 ^ (k + 1))).map (fun i => g ^ i) := by
    rw [hparams, FriParameters.new_domain_0, hN]
  have hsize : params.domain_0_size = 2 ^ (k + 1) := by
    rw [hparams, FriParameters.new_size, hN]
  set evals := params.domain_0.map (evalPoly poly) with hevals
  set t1 := Transcript.new.append_bytes (MerkleTreeM.root ⟨evals⟩).encode with ht1
  have helen : evals.length = 2 ^ (k + 1) := by
    rw [hevals, List.length_map, hdom0]
    simp
  have hchain : proveChain (k + 1) poly params = foldSpec (k + 1) evals params.domain_0 t1 := rfl
  obtain ⟨m1, m2, m3, m4, m5, m6⟩ :=
    foldSpec_facts (k + 1) g evals params.domain_0 t1 helen hdom0
  have hcommlen : (proveProofSpec (k + 1) poly params).layer_commitments.length = k + 2 := by
    show ((proveChain (k + 1) poly params).1.map _).length = _
    rw [List.length_map, hchain, m1]
  have hvq : ∀ i : Nat, i < 2 ^ (k + 1) →
      Verifier.verify_query g params (proveProofSpec (k + 1) poly params) i
        (proveChain (k + 1) poly params).2.1
        (Prover.query_decommitment (proveChain (k + 1) poly params).1 i) = .ok () := by
    intro i hq
    rw [Verifier.verify_query]
    have hm : Verifier.verify_merkle_paths params (proveProofSpec (k + 1) poly params) i
        (Prover.query_decommitment (proveChain (k + 1) poly params).1 i) = .ok () := by
      rw [Verifier.verify_merkle_paths]
      have hcomm : (proveProofSpec (k + 1) poly params).layer_commitments =
          (proveChain (k + 1) poly params).1.map (fun l => l.merkle_tree.root) := rfl
      rw [hcomm, hsize]
      apply merkle_loop_ok_chain (proveChain (k + 1) poly params).1 (k + 1) i
        (by rw [hchain, m1]) ?_ hq
      intro j hj
      rw [hchain, m1] at hj
      have hj' : j ≤ k + 1 := by omega
      obtain ⟨f1, f2, f3⟩ := m3 j hj'
      rw [hchain]
      refine ⟨f1, ?_, f3⟩
      rw [f2]
      simp
    rw [hm]
    show Verifier.verify_folding_consistency g params (proveProofSpec (k + 1) poly params) i
      (Prover.query_decommitment (proveChain (k + 1) poly params).1 i)
      (proveChain (k + 1) poly params).2.1 = .ok ()
    rw [Verifier.verify_folding_consistency]
    rw [hcommlen]
    have hlast : (proveProofSpec (k + 1) poly params).last_layer_value =
        (Prover.query_decommitment (proveChain (k + 1) poly params).1
          i).layer_evaluations.getD (k + 1) 0 := by
      show (proveChain (k + 1) poly params).2.2.1 = _
      rw [hchain] at *
      obtain ⟨d1, d2, d3, d4⟩ := m6 i hq (k + 1) (by omega)
      rw [d1]
      have hz : i % 2 ^ (k + 1 - (k + 1)) = 0 := by
        simp only [Nat.sub_self, pow_zero]
        omega
      rw [hz]
      exact m5
    rw [hlast]
    have hsub : k + 2 - 1 = k + 1 := by omega
    rw [hsub, hsize]
    rw [hchain]
    exact folding_loop_ok (k + 1) g evals params.domain_0 t1 i helen hdom0 hq
      (by simpa using hgneg) (k + 1) (by omega)
  rw [Verifier.verify]
  rw [reconstruct_eq_spec]
  have hdecs : (proveProofSpec (k + 1) poly params).query_decommitments =
      (proveIndices (k + 1) poly params).map
        (Prover.query_decommitment (proveChain (k + 1) poly params).1) := rfl
  have hmem : ∀ i ∈ proveIndices (k + 1) poly params, i < 2 ^ (k + 1) := by
    intro i hi
    rw [proveIndices] at hi
    have := sampleIndices_lt params.num_queries params.domain_0_size
      (proveChain (k + 1) poly params).2.2.2 (by rw [hsize]; positivity) i hi
    rw [hsize] at this
    exact this
  show Verifier.verify_queries_loop g params (proveProofSpec (k + 1) poly params)
      (proveChain (k + 1) poly params).2.1
      ((proveIndices (k + 1) poly params).zip
        (proveProofSpec (k + 1) poly params).query_decommitments) = .ok ()
  rw [hdecs]
  generalize hidx : proveIndices (k + 1) poly params = idxs at hmem
  clear hidx hdecs
  induction idxs with
  | nil => rfl
  | cons i rest ihq =>
    rw [List.map_cons, List.zip_cons_cons]
    rw [Verifier.verify_queries_loop]
    rw [hvq i (hmem i (by simp))]
    exact ihq (fun x hx => hmem x (by simp [hx]))

/-- **C1.** For every polynomial `p` of degree at most `claimed_degree` and
parameters built by `FriParameters::new(claimed_degree, blowup_factor,
num_queries)` such that `(claimed_degree + 1) * blowup_factor` is a power of
two (at least 2), `Prover::new(p, params).prove()` returns `Ok(proof)` and
`Verifier::new(params).verify(&proof)` returns `Ok(())`.  The external
primitive-root provider is modelled by the parameter `g` together with its
contract (`g` is a primitive root of unity of the domain order, which for
the power-of-two order `2^(k+1)` is captured by `g^(2^(k+1)) = 1` and
`g^(2^k) = -1`). -/
theorem C1_prove_verify_roundtrip (g : F) (poly : List F)
    (claimed_degree blowup_factor num_queries k : Nat)
    (hN : (claimed_degree + 1) * blowup_factor = 2 ^ (k + 1))
    (hg1 : g ^ 2 ^ (k + 1) = 1)
    (hgneg : g ^ 2 ^ k = -1)
    (hdeg : poly.length ≤ claimed_degree + 1) :
    ∃ proof : FriProof,
      Prover.prove poly (FriParameters.new g claimed_degree blowup_factor num_queries)
        = .ok proof ∧
      Verifier.verify g (FriParameters.new g claimed_degree blowup_factor num_queries) proof
        = .ok () :=
  ⟨proveProofSpec (k + 1) poly
      (FriParameters.new g claimed_degree blowup_factor num_queries),
    prove_eq_spec g poly claimed_degree blowup_factor num_queries (k + 1) hN,
    verify_ok g poly claimed_degree blowup_factor num_queries k hN hgneg⟩

/-- Witness for C1: `p = [5]` (degree 0), `claimed_degree = 0`,
`blowup_factor = 2`, one query, `g = -1` (the primitive square root of
unity), so the initial domain is `{1, -1}`. -/
theorem C1_prove_verify_roundtrip_witness :
    ((0 + 1) * 2 = 2 ^ (0 + 1) ∧ (2013265920 : F) ^ 2 ^ (0 + 1) = 1 ∧
      (2013265920 : F) ^ 2 ^ 0 = -1 ∧ ([5] : List F).length ≤ 0 + 1) ∧
    ∃ proof : FriProof,
      Prover.prove [5] (FriParameters.new 2013265920 0 2 1) = .ok proof ∧
      Verifier.verify 2013265920 (FriParameters.new 2013265920 0 2 1) proof = .ok () :=
  ⟨⟨by decide, by decide, by decide, by decide⟩,
    C1_prove_verify_roundtrip 2013265920 [5] 0 2 1 0
      (by decide) (by decide) (by decide) (by decide)⟩

/-- **C3.** On an honestly generated proof, `Verifier::reconstruct_challenges`
performs byte-for-byte the same transcript absorb/squeeze sequence as the
prover's `prove` — in the model the transcript state is the full
absorb/squeeze history, so equality of the final states (third component) is
exactly byte-for-byte agreement of the two interaction sequences — and the
betas and query indices it returns are equal to those the prover used:
`(proveChain …).2.1` are the betas the prover folded with and
`proveIndices …` are the indices whose decommitments the prover emitted
(first conjunct). -/
theorem C3_transcript_replay (g : F) (poly : List F) (d b nq k : Nat)
    (hN : (d + 1) * b = 2 ^ k) :
    Prover.prove poly (FriParameters.new g d b nq) =
      .ok (proveProofSpec k poly (FriParameters.new g d b nq)) ∧
    Verifier.reconstruct_challenges (FriParameters.new g d b nq) Transcript.new
        (proveProofSpec k poly (FriParameters.new g d b nq)) =
      (((proveChain k poly (FriParameters.new g d b nq)).2.1,
        proveIndices k poly (FriParameters.new g d b nq)),
        (Prover.sampleIndices (FriParameters.new g d b nq).num_queries
          (FriParameters.new g d b nq).domain_0_size
          (proveChain k poly (FriParameters.new g d b nq)).2.2.2).2) :=
  ⟨prove_eq_spec g poly d b nq k hN, reconstruct_eq_spec g poly d b nq k⟩

/-- Witness for C3 at `p = [7]`, degree 0, blowup 2, two queries, `g = -1`. -/
theorem C3_transcript_replay_witness :
    ((0 + 1) * 2 = 2 ^ 1) ∧
    (Prover.prove [7] (FriParameters.new 2013265920 0 2 2) =
      .ok (proveProofSpec 1 [7] (FriParameters.new 2013265920 0 2 2)) ∧
    Verifier.reconstruct_challenges (FriParameters.new 2013265920 0 2 2) Transcript.new
        (proveProofSpec 1 [7] (FriParameters.new 2013265920 0 2 2)) =
      (((proveChain 1 [7] (FriParameters.new 2013265920 0 2 2)).2.1,
        proveIndices 1 [7] (FriParameters.new 2013265920 0 2 2)),
        (Prover.sampleIndices (FriParameters.new 2013265920 0 2 2).num_queries
          (FriParameters.new 2013265920 0 2 2).domain_0_size
          (proveChain 1 [7] (FriParameters.new 2013265920 0 2 2)).2.2.2).2)) :=
  ⟨by decide, C3_transcript_replay 2013265920 [7] 0 2 2 1 (by decide)⟩

/-- **C9.** Every `FriProof` produced by `Prover::prove` with initial domain
size `N_0 = 2^k` (folding until a single evaluation remains) has exactly
`log2(N_0) + 1 = k + 1` layer commitments, and each `QueryDecommitment`'s
four parallel lists each have exactly that same length. -/
theorem C9_proof_shape (g : F) (poly : List F) (d b nq k : Nat)
    (hN : (d + 1) * b = 2 ^ k) :
    ∃ proof : FriProof,
      Prover.prove poly (FriParameters.new g d b nq) = .ok proof ∧
      proof.layer_commitments.length = k + 1 ∧
      ∀ dec ∈ proof.query_decommitments,
        dec.layer_evaluations.length = k + 1 ∧
        dec.layer_auth_paths.length = k + 1 ∧
        dec.layer_evaluations_sym.length = k + 1 ∧
        dec.layer_auth_paths_sym.length = k + 1 := by
  set params := FriParameters.new g d b nq with hparams
  have hdom0 : params.domain_0 = (List.range (2 ^ k)).map (fun i => g ^ i) := by
    rw [hparams, FriParameters.new_domain_0, hN]
  set evals := params.domain_0.map (evalPoly poly) with hevals
  set t1 := Transcript.new.append_bytes (MerkleTreeM.root ⟨evals⟩).encode with ht1
  have helen : evals.length = 2 ^ k := by
    rw [hevals, List.length_map, hdom0]
    simp
  obtain ⟨m1, m2, m3, m4, m5, m6⟩ := foldSpec_facts k g evals params.domain_0 t1 helen hdom0
  refine ⟨proveProofSpec k poly params, prove_eq_spec g poly d b nq k hN, ?_, ?_⟩
  · show ((proveChain k poly params).1.map _).length = k + 1
    rw [List.length_map]
    exact m1
  · intro dec hdec
    have hmem : dec ∈ (proveIndices k poly params).map
        (Prover.query_decommitment (proveChain k poly params).1) := hdec
    rw [List.mem_map] at hmem
    obtain ⟨i, _, rfl⟩ := hmem
    obtain ⟨h1, h2, h3, h4⟩ :=
      query_decommitment_lengths (proveChain k poly params).1 i
    have hlay : (proveChain k poly params).1.length = k + 1 := m1
    rw [hlay] at h1 h2 h3 h4
    exact ⟨h1, h2, h3, h4⟩

/-- Witness for C9 at `p = [2, 1]`, degree 1, blowup 2 (domain size 4),
three queries, `g = 1728404513` (a primitive fourth root of unity). -/
theorem C9_proof_shape_witness :
    ((1 + 1) * 2 = 2 ^ 2) ∧
    ∃ proof : FriProof,
      Prover.prove [2, 1] (FriParameters.new 1728404513 1 2 3) = .ok proof ∧
      proof.layer_commitments.length = 2 + 1 ∧
      ∀ dec ∈ proof.query_decommitments,
        dec.layer_evaluations.length = 2 + 1 ∧
        dec.layer_auth_paths.length = 2 + 1 ∧
        dec.layer_evaluations_sym.length = 2 + 1 ∧
        dec.layer_auth_paths_sym.length = 2 + 1 :=
  ⟨by decide, C9_proof_shape 1728404513 [2, 1] 1 2 3 2 (by decide)⟩

/-- **C10.** For every nonzero `x` and values `y`, `y'`, `β`, the folding
expression `(y + y')/2 + β(y − y')/(2x)` is invariant under replacing
`(x, y, y')` by `(−x, y', y)`; consequently, on an honest chain the
verifier's recomputed folded value in `verify_folding_consistency` (which
uses `x = (g^(2^j))^(q mod N_j)` and the decommitted pair in prover order)
equals the prover's `fold_evaluations` output at index
`(q mod N_j) mod (N_j / 2)`, also when `q mod N_j ≥ N_j / 2`. -/
theorem C10_fold_swap_invariance (x y ysym beta : F) (hx : x ≠ 0)
    (k : Nat) (g : F) (evals domain : List F) (t : Transcript) (q j : Nat)
    (hlen : evals.length = 2 ^ k)
    (hdom : domain = (List.range (2 ^ k)).map (fun i => g ^ i))
    (hq : q < 2 ^ k) (hj : j < k)
    (hgneg : g ^ 2 ^ (k - 1) = -1) :
    ((y + ysym) / 2 + beta * (y - ysym) / (2 * x) =
      (ysym + y) / 2 + beta * (ysym - y) / (2 * -x)) ∧
    Verifier.expected_child_evaluation g (2 ^ k)
        (Prover.query_decommitment (foldSpec k evals domain t).1 q)
        (foldSpec k evals domain t).2.1 q j =
      (fold_evaluations (nthLayer (foldSpec k evals domain t).1 j).evaluations
          (nthLayer (foldSpec k evals domain t).1 j).domain
          ((foldSpec k evals domain t).2.1.getD j 0)).1.getD
        (q % 2 ^ (k - j) % (2 ^ (k - j) / 2)) 0 := by
  constructor
  · rw [div_eq_mul_inv, div_eq_mul_inv, div_eq_mul_inv, div_eq_mul_inv, mul_inv, mul_inv,
      inv_neg]
    ring
  · obtain ⟨m1, m2, m3, m4, m5, m6⟩ := foldSpec_facts k g evals domain t hlen hdom
    rw [dec_expected_matches k g evals domain t q j hlen hdom hq hj hgneg]
    obtain ⟨e1, e2, e3, e4⟩ := m6 q hq (j + 1) (by omega)
    rw [e1, m4 j hj]
    obtain ⟨m, hm⟩ : ∃ m, k - j = m + 1 := ⟨k - j - 1, by omega⟩
    have hm2 : k - (j + 1) = m := by omega
    rw [hm, hm2]
    have hhalf : 2 ^ (m + 1) / 2 = 2 ^ m := by rw [Nat.pow_succ]; omega
    rw [hhalf]
    have hmm : q % 2 ^ (m + 1) % 2 ^ m = q % 2 ^ m :=
      Nat.mod_mod_of_dvd q (pow_dvd_pow 2 (by omega))
    rw [hmm]

/-- Witness for C10: `x = 3`, `(y, y') = (1, 2)`, `β = 5`; chain over the
two-point domain `{1, -1}` with `q = 1` (the swapped, second-half case). -/
theorem C10_fold_swap_invariance_witness :
    ((3 : F) ≠ 0 ∧ ([4, 9] : List F).length = 2 ^ 1 ∧
      ([1, 2013265920] : List F) =
        (List.range (2 ^ 1)).map (fun i => (2013265920 : F) ^ i) ∧
      (2013265920 : F) ^ 2 ^ (1 - 1) = -1) ∧
    (((1 : F) + 2) / 2 + 5 * ((1 : F) - 2) / (2 * 3) =
      ((2 : F) + 1) / 2 + 5 * ((2 : F) - 1) / (2 * -3)) ∧
    Verifier.expected_child_evaluation 2013265920 (2 ^ 1)
        (Prover.query_decommitment (foldSpec 1 [4, 9] [1, 2013265920] Transcript.new).1 1)
        (foldSpec 1 [4, 9] [1, 2013265920] Transcript.new).2.1 1 0 =
      (fold_evaluations
          (nthLayer (foldSpec 1 [4, 9] [1, 2013265920] Transcript.new).1 0).evaluations
          (nthLayer (foldSpec 1 [4, 9] [1, 2013265920] Transcript.new).1 0).domain
          ((foldSpec 1 [4, 9] [1, 2013265920] Transcript.new).2.1.getD 0 0)).1.getD
        (1 % 2 ^ (1 - 0) % (2 ^ (1 - 0) / 2)) 0 :=
  ⟨⟨by decide, by decide, by decide, by decide⟩,
    C10_fold_swap_invariance 3 1 2 5 (by decide) 1 2013265920 [4, 9] [1, 2013265920]
      Transcript.new 1 0 (by decide) (by decide) (by decide) (by omega) (by decide)⟩

-- ---------------------------------------------------------------------------
-- Lemmas for the tampered-proof analysis (claim C5).
-- ---------------------------------------------------------------------------

/-- Every failure of the Merkle-path loop is `InvalidMerkleProof`. -/
theorem merkle_loop_error : ∀ (cs : List Digest) (N i q : Nat) (dec : QueryDecommitment),
    Verifier.verify_merkle_paths_loop N cs i q dec = .ok () ∨
    Verifier.verify_merkle_paths_loop N cs i q dec = .error .InvalidMerkleProof := by
  intro cs
  induction cs with
  | nil => intro N i q dec; exact Or.inl rfl
  | cons c rest ih =>
    intro N i q dec
    rw [Verifier.verify_merkle_paths_loop]
    cases h1 : verifyPath c q (dec.layer_evaluations.getD i 0)
        (dec.layer_auth_paths.getD i []) with
    | false => simp [h1]
    | true =>
      simp only [h1]
      cases h2 : verifyPath c ((q + N >>> i / 2) % N >>> i)
          (dec.layer_evaluations_sym.getD i 0) (dec.layer_auth_paths_sym.getD i []) with
      | false => simp [h2]
      | true =>
        simp only [h2, if_true]
        exact ih N (i + 1) _ dec

/-- If the Merkle-path loop accepts a non-empty commitment list, then both
head checks pass and the loop accepts the remainder. -/
theorem merkle_loop_ok_head (c : Digest) (rest : List Digest) (N i q : Nat)
    (dec : QueryDecommitment)
    (h : Verifier.verify_merkle_paths_loop N (c :: rest) i q dec = .ok ()) :
    verifyPath c q (dec.layer_evaluations.getD i 0) (dec.layer_auth_paths.getD i []) = true ∧
    verifyPath c ((q + N >>> i / 2) % N >>> i) (dec.layer_evaluations_sym.getD i 0)
      (dec.layer_auth_paths_sym.getD i []) = true ∧
    Verifier.verify_merkle_paths_loop N rest (i + 1) (q % max (N >>> i / 2) 1) dec
      = .ok () := by
  rw [Verifier.verify_merkle_paths_loop] at h
  cases h1 : verifyPath c q (dec.layer_evaluations.getD i 0)
      (dec.layer_auth_paths.getD i []) with
  | false => rw [h1] at h; simp at h
  | true =>
    rw [h1] at h
    cases h2 : verifyPath c ((q + N >>> i / 2) % N >>> i)
        (dec.layer_evaluations_sym.getD i 0) (dec.layer_auth_paths_sym.getD i []) with
    | false => rw [h2] at h; simp at h
    | true =>
      rw [h2] at h
      simp only [if_true] at h
      exact ⟨rfl, rfl, h⟩

/-- Accepting runs of the Merkle loop restrict to accepting runs on any
suffix of the commitments, with the index reduced layer by layer. -/
theorem merkle_loop_ok_drop : ∀ (j kk : Nat) (cs : List Digest) (q : Nat)
    (dec : QueryDecommitment), j ≤ kk → q < 2 ^ kk →
    Verifier.verify_merkle_paths_loop (2 ^ kk) cs 0 q dec = .ok () →
    Verifier.verify_merkle_paths_loop (2 ^ kk) (cs.drop j) j (q % 2 ^ (kk - j)) dec
      = .ok () := by
  intro j
  induction j with
  | zero =>
    intro kk cs q dec hj hq h
    simpa [Nat.mod_eq_of_lt hq] using h
  | succ j ih =>
    intro kk cs q dec hj hq h
    have hstep := ih kk cs q dec (by omega) hq h
    by_cases hlen : j < cs.length
    · rw [List.drop_eq_getElem_cons hlen] at hstep
      obtain ⟨h1, h2, h3⟩ := merkle_loop_ok_head _ _ _ _ _ _ hstep
      have hshift : 2 ^ kk >>> j = 2 ^ (kk - j) := shiftRight_pow kk j (by omega)
      have hmax : max (2 ^ kk >>> j / 2) 1 = 2 ^ (kk - j - 1) := by
        rw [hshift]
        obtain ⟨m, hm⟩ : ∃ m, kk - j = m + 1 := ⟨kk - j - 1, by omega⟩
        rw [hm, Nat.add_sub_cancel, Nat.pow_succ]
        have : 0 < 2 ^ m := by positivity
        omega
      rw [hmax] at h3
      have hmm : q % 2 ^ (kk - j) % 2 ^ (kk - j - 1) = q % 2 ^ (kk - (j + 1)) := by
        rw [Nat.mod_mod_of_dvd q (pow_dvd_pow 2 (by omega))]
        have hee : kk - j - 1 = kk - (j + 1) := by omega
        rw [hee]
      rw [hmm] at h3
      exact h3
    · have hd : cs.drop (j + 1) = [] := by
        rw [List.drop_eq_nil_iff]
        omega
      rw [hd]
      rfl

theorem getD_map_root (layers : List FriLayer) (j : Nat) (hj : j < layers.length) :
    ((layers.map (fun l => l.merkle_tree.root)).getD j (Digest.leaf 0)) =
      (nthLayer layers j).merkle_tree.root := by
  rw [List.getD_eq_getElem _ _ (by simpa using hj), List.getElem_map]
  rw [nthLayer, List.getD_eq_getElem _ _ hj]

/-- `verifyPath` acceptance against the perfect-tree root forces the checked
value to be the committed leaf at the checked position (ideal hash). -/
theorem verifyPath_sound (kk : Nat) (l : List F) (pos : Nat) (v : F) (path : List Digest)
    (hl : l.length = 2 ^ kk) (hpos : pos < 2 ^ kk)
    (h : verifyPath (rootPow kk l) pos v path = true) :
    l.getD pos 0 = v := by
  rw [verifyPath] at h
  have hfold : ((path.foldl verifyPathStep (Digest.leaf v, pos)).1) = rootPow kk l := by
    exact beq_iff_eq.mp h
  have := verifyPath_binding kk l path v pos hl hfold
  rw [Nat.mod_eq_of_lt hpos] at this
  exact this

/-- If the decommitted pair at the second-to-last layer agrees with the
committed evaluations at the verifier's (possibly different) index, the
verifier's recomputed child at that layer is exactly the honest last-layer
value. -/
theorem expected_eq_last_of_bound (k : Nat) (g : F) (evals domain : List F) (t : Transcript)
    (dec : QueryDecommitment) (i2 : Nat)
    (hlen : evals.length = 2 ^ (k + 1))
    (hdom : domain = (List.range (2 ^ (k + 1))).map (fun i => g ^ i))
    (hgneg : g ^ 2 ^ k = -1)
    (hb1 : dec.layer_evaluations.getD k 0 =
      (nthLayer (foldSpec (k + 1) evals domain t).1 k).evaluations.getD (i2 % 2) 0)
    (hb2 : dec.layer_evaluations_sym.getD k 0 =
      (nthLayer (foldSpec (k + 1) evals domain t).1 k).evaluations.getD ((i2 % 2 + 1) % 2) 0) :
    Verifier.expected_child_evaluation g (2 ^ (k + 1)) dec
        (foldSpec (k + 1) evals domain t).2.1 i2 k =
      (foldSpec (k + 1) evals domain t).2.2.1 := by
  obtain ⟨m1, m2, m3, m4, m5, m6⟩ := foldSpec_facts (k + 1) g evals domain t hlen hdom
  obtain ⟨l1, l2, l3⟩ := m3 k (by omega)
  have hsube : k + 1 - k = 1 := by omega
  rw [hsube] at l1 l2
  have hshift : 2 ^ (k + 1) >>> k = 2 ^ 1 := by
    rw [shiftRight_pow (k + 1) k (by omega), hsube]
  have hneg1 : (g ^ 2 ^ k) ^ 2 ^ 0 = -1 := by
    rw [pow_zero, pow_one, hgneg]
  have hkernel := verifier_fold_matches_kernel (g ^ 2 ^ k)
    ((foldSpec (k + 1) evals domain t).2.1.getD k 0)
    (nthLayer (foldSpec (k + 1) evals domain t).1 k).evaluations
    0 (i2 % 2)
    (by have := Nat.mod_lt i2 (show 0 < 2 by omega); simpa using this)
    (by simpa using l1) hneg1
  rw [Verifier.expected_child_evaluation]
  rw [hb1, hb2, hshift]
  have hmod2 : i2 % 2 ^ 1 = i2 % 2 := by norm_num
  rw [hmod2]
  have hsym : ((i2 % 2 + 2 ^ 0) % 2 ^ (0 + 1)) = (i2 % 2 + 1) % 2 := by norm_num
  rw [hsym] at hkernel
  have hidx : i2 % 2 % 2 ^ 0 = 0 := by
    simp only [pow_zero]
    omega
  rw [hidx] at hkernel
  rw [hkernel]
  have hfold := m4 k (by omega)
  have hdomk : (nthLayer (foldSpec (k + 1) evals domain t).1 k).domain =
      (List.range (2 ^ (0 + 1))).map (fun i => (g ^ 2 ^ k) ^ i) := by
    rw [l2]
  rw [← hdomk, ← hfold]
  rw [m5]

/-- `reconstruct_challenges` on the proof with a replaced last-layer value:
the betas are unchanged (they are squeezed before the last value is
absorbed); the query indices are sampled from the modified transcript. -/
theorem reconstruct_tampered (g : F) (poly : List F) (d b nq k : Nat) (v2 : F) :
    ∃ tfv : Transcript,
    Verifier.reconstruct_challenges (FriParameters.new g d b nq) Transcript.new
        { proveProofSpec k poly (FriParameters.new g d b nq) with last_layer_value := v2 } =
      (((proveChain k poly (FriParameters.new g d b nq)).2.1,
        (Prover.sampleIndices (FriParameters.new g d b nq).num_queries
          (FriParameters.new g d b nq).domain_0_size tfv).1),
        (Prover.sampleIndices (FriParameters.new g d b nq).num_queries
          (FriParameters.new g d b nq).domain_0_size tfv).2) := by
  set params := FriParameters.new g d b nq with hparams
  set evals := params.domain_0.map (evalPoly poly) with hevals
  set t1 := Transcript.new.append_bytes (MerkleTreeM.root ⟨evals⟩).encode with ht1
  obtain ⟨tf, hrec, hlast⟩ := reconstruct_betas_replay k evals params.domain_0 t1
  refine ⟨tf.append_bytes (serializeFE v2), ?_⟩
  have hhead : ({ proveProofSpec k poly params with last_layer_value := v2
      } : FriProof).layer_commitments.getD 0 (Digest.leaf 0) =
      MerkleTreeM.root ⟨evals⟩ := by
    show ((proveChain k poly params).1.map (fun l => l.merkle_tree.root)).getD 0 _ = _
    show ((foldSpec k evals params.domain_0 t1).1.map (fun l => l.merkle_tree.root)).getD 0 _ = _
    rw [foldSpec_fst_eq_cons, List.map_cons, List.getD_cons_zero]
  have hdrop : ({ proveProofSpec k poly params with last_layer_value := v2
      } : FriProof).layer_commitments.drop 1 =
      ((foldSpec k evals params.domain_0 t1).1.map (fun l => l.merkle_tree.root)).drop 1 := rfl
  have hcount : ({ proveProofSpec k poly params with last_layer_value := v2
      } : FriProof).query_decommitments.length = params.num_queries := by
    show ((proveIndices k poly params).map _).length = _
    rw [List.length_map, proveIndices, sampleIndices_length]
  rw [Verifier.reconstruct_challenges]
  simp only [hhead, hdrop, hcount]
  rw [← ht1, hrec]
  rfl

/-- The honest last-layer value of the constant polynomial `[5]` over the
two-point domain: the fold of the constant vector `[5, 5]` is again `5`
whatever `beta` the transcript samples. -/
theorem proveProofSpec_last_const :
    (proveProofSpec (0 + 1) [(5 : F)]
      (FriParameters.new 2013265920 0 2 1)).last_layer_value = 5 := by
  have hred : (proveProofSpec (0 + 1) [(5 : F)]
      (FriParameters.new 2013265920 0 2 1)).last_layer_value
      = (fold_evaluations [(5 : F), 5] [1, 2013265920]
          ((Transcript.new.append_bytes
            (MerkleTreeM.root ⟨[(5 : F), 5]⟩).encode).sample_field_element).1).1.getD 0 0 := rfl
  rw [hred, fold_evaluations_fst_getD _ _ _ 0 (by norm_num)]
  norm_num [List.getD]
  have h2 : (2 : F) ≠ 0 := two_ne_zero_F
  field_simp
  norm_num

/-- Counterexample to C5 as stated: with `num_queries = 0` the verifier
checks no queries at all, so a proof whose `last_layer_value` has been
replaced by a different field element is still accepted — no
`InconsistentFolding`/`MaxDegreeExceeded` error is produced. -/
theorem C5_counterexample :
    ∃ proof : FriProof,
      Prover.prove [(5 : F)] (FriParameters.new 2013265920 0 2 0) = .ok proof ∧
      proof.last_layer_value + 1 ≠ proof.last_layer_value ∧
      Verifier.verify 2013265920 (FriParameters.new 2013265920 0 2 0)
        { proof with last_layer_value := proof.last_layer_value + 1 } = .ok () := by
  refine ⟨proveProofSpec 1 [(5 : F)] (FriParameters.new 2013265920 0 2 0),
    prove_eq_spec 2013265920 [(5 : F)] 0 2 0 1 (by norm_num), ?_, ?_⟩
  · simp
  · rfl

/-- Amended C5: replacing the last-layer value of an honest proof that
contains at least one query decommitment makes `Verifier::verify` fail —
with `InvalidMerkleProof` when the re-derived query indices no longer match
the decommitted paths, and otherwise with `InconsistentFolding` at the
second-to-last layer. -/
theorem C5_tamper_rejected (g : F) (poly : List F) (d b nq k : Nat) (v2 : F)
    (hN : (d + 1) * b = 2 ^ (k + 1))
    (hgneg : g ^ 2 ^ k = -1)
    (hnq : 1 ≤ nq)
    (hne : v2 ≠ (proveProofSpec (k + 1) poly (FriParameters.new g d b nq)).last_layer_value) :
    ∃ e : FriError,
      Verifier.verify g (FriParameters.new g d b nq)
        { proveProofSpec (k + 1) poly (FriParameters.new g d b nq) with
          last_layer_value := v2 } = .error e ∧
      (e = .InvalidMerkleProof ∨ ∃ layer exp got, e = .InconsistentFolding layer exp got) := by
  set params := FriParameters.new g d b nq with hparams
  have hdom0 : params.domain_0 = (List.range (2 ^ (k + 1))).map (fun i => g ^ i) := by
    rw [hparams, FriParameters.new_domain_0, hN]
  have hsize : params.domain_0_size = 2 ^ (k + 1) := by
    rw [hparams, FriParameters.new_size, hN]
  set evals := params.domain_0.map (evalPoly poly) with hevals
  set t1 := Transcript.new.append_bytes (MerkleTreeM.root ⟨evals⟩).encode with ht1
  have helen : evals.length = 2 ^ (k + 1) := by
    rw [hevals, List.length_map, hdom0]
    simp
  obtain ⟨m1, m2, m3, m4, m5, m6⟩ :=
    foldSpec_facts (k + 1) g evals params.domain_0 t1 helen hdom0
  obtain ⟨tfv, hrec2⟩ := reconstruct_tampered g poly d b nq (k + 1) v2
  rcases hcase : (Prover.sampleIndices params.num_queries params.domain_0_size tfv).1 with
    _ | ⟨i2, restI⟩
  · have : (Prover.sampleIndices params.num_queries params.domain_0_size tfv).1.length = nq := by
      rw [sampleIndices_length]
      rfl
    rw [hcase] at this
    simp at this
    omega
  · have hi2lt : i2 < 2 ^ (k + 1) := by
      have hmem : i2 ∈ (Prover.sampleIndices params.num_queries params.domain_0_size tfv).1 := by
        rw [hcase]
        simp
      have := sampleIndices_lt params.num_queries params.domain_0_size tfv
        (by rw [hsize]; positivity) i2 hmem
      rw [hsize] at this
      exact this
    rcases hpidx : proveIndices (k + 1) poly params with _ | ⟨p0, restP⟩
    · exfalso
      have : (proveIndices (k + 1) poly params).length = nq := by
        rw [proveIndices, sampleIndices_length]
        rfl
      rw [hpidx] at this
      simp at this
      omega
    rw [hcase] at hrec2
    set Pf2 : FriProof :=
      { proveProofSpec (k + 1) poly params with last_layer_value := v2 } with hPf2
    have hdecs : Pf2.query_decommitments =
        Prover.query_decommitment (proveChain (k + 1) poly params).1 p0 ::
          restP.map (Prover.query_decommitment (proveChain (k + 1) poly params).1) := by
      show (proveIndices (k + 1) poly params).map _ = _
      rw [hpidx, List.map_cons]
    set dec0 := Prover.query_decommitment (proveChain (k + 1) poly params).1 p0 with hdec0
    have hcs : Pf2.layer_commitments =
        (foldSpec (k + 1) evals params.domain_0 t1).1.map
          (fun l => l.merkle_tree.root) := rfl
    have hcslen : Pf2.layer_commitments.length = k + 2 := by
      rw [hcs, List.length_map, m1]
    rcases merkle_loop_error Pf2.layer_commitments params.domain_0_size 0 i2 dec0
      with hm | hm
    · -- Merkle checks passed at the verifier's index: position binding makes
      -- the folding check at layer k compare v2 against the honest value.
      have hm2 : Verifier.verify_merkle_paths_loop (2 ^ (k + 1)) Pf2.layer_commitments 0 i2
          dec0 = .ok () := by
        rw [← hsize]
        exact hm
      have hmdrop := merkle_loop_ok_drop k (k + 1) Pf2.layer_commitments i2 dec0
        (by omega) hi2lt hm2
      have hklen : k < Pf2.layer_commitments.length := by omega
      rw [List.drop_eq_getElem_cons hklen] at hmdrop
      obtain ⟨hp1, hp2, _⟩ := merkle_loop_ok_head _ _ _ _ _ _ hmdrop
      obtain ⟨l1, l2, l3⟩ := m3 k (by omega)
      have hsube : k + 1 - k = 1 := by omega
      rw [hsube] at l1
      have hlayk : k < (foldSpec (k + 1) evals params.domain_0 t1).1.length := by
        rw [m1]
        omega
      have hcomk : Pf2.layer_commitments[k] =
          rootPow 1 (nthLayer (foldSpec (k + 1) evals params.domain_0 t1).1 k).evaluations := by
        have hg1 : Pf2.layer_commitments[k] =
            (nthLayer (foldSpec (k + 1) evals params.domain_0 t1).1 k).merkle_tree.root := by
          have := getD_map_root (foldSpec (k + 1) evals params.domain_0 t1).1 k hlayk
          rw [← this, ← hcs]
          rw [List.getD_eq_getElem _ _ hklen]
        rw [hg1, l3]
        show rootPow (myLog2
          (nthLayer (foldSpec (k + 1) evals params.domain_0 t1).1 k).evaluations.length) _ = _
        rw [l1]
        rw [show (2 : Nat) ^ 1 = 2 ^ 1 from rfl, myLog2_pow]
      have hmodred : i2 % 2 ^ (k + 1 - k) = i2 % 2 := by rw [hsube]; norm_num
      rw [hmodred, hcomk] at hp1 hp2
      have hshiftk : 2 ^ (k + 1) >>> k = 2 := by
        rw [shiftRight_pow (k + 1) k (by omega), hsube]
        norm_num
      rw [hshiftk] at hp2
      have hsymp : (i2 % 2 + 2 / 2) % 2 = (i2 % 2 + 1) % 2 := by norm_num
      rw [hsymp] at hp2
      have hb1 := verifyPath_sound 1
        (nthLayer (foldSpec (k + 1) evals params.domain_0 t1).1 k).evaluations
        (i2 % 2) (dec0.layer_evaluations.getD k 0) (dec0.layer_auth_paths.getD k [])
        (by rw [l1]) (by norm_num; omega) hp1
      have hb2 := verifyPath_sound 1
        (nthLayer (foldSpec (k + 1) evals params.domain_0 t1).1 k).evaluations
        ((i2 % 2 + 1) % 2) (dec0.layer_evaluations_sym.getD k 0)
        (dec0.layer_auth_paths_sym.getD k [])
        (by rw [l1]) (by norm_num; omega) hp2
      have hexp := expected_eq_last_of_bound k g evals params.domain_0 t1 dec0 i2
        helen hdom0 hgneg hb1.symm hb2.symm
      have hne2 : v2 ≠ (foldSpec (k + 1) evals params.domain_0 t1).2.2.1 := hne
      have hfc : Verifier.verify_folding_consistency g params Pf2 i2 dec0
          (proveChain (k + 1) poly params).2.1 =
            .error (.InconsistentFolding k
              ((foldSpec (k + 1) evals params.domain_0 t1).2.2.1) v2) := by
        rw [Verifier.verify_folding_consistency, hcslen]
        show Verifier.folding_check_loop g params.domain_0_size i2 dec0
          (proveChain (k + 1) poly params).2.1 (k + 1) v2 = _
        rw [Verifier.folding_check_loop]
        rw [hsize]
        show (if v2 ≠ Verifier.expected_child_evaluation g (2 ^ (k + 1)) dec0
            (foldSpec (k + 1) evals params.domain_0 t1).2.1 i2 k then _ else _) = _
        rw [hexp, if_pos hne2]
        rw [show (proveChain (k + 1) poly params).2.1 =
            (foldSpec (k + 1) evals params.domain_0 t1).2.1 from rfl, hexp]
      have hvq : Verifier.verify_query g params Pf2 i2
          (proveChain (k + 1) poly params).2.1 dec0 =
            .error (.InconsistentFolding k
              ((foldSpec (k + 1) evals params.domain_0 t1).2.2.1) v2) := by
        rw [Verifier.verify_query]
        have hmp : Verifier.verify_merkle_paths params Pf2 i2 dec0 = .ok () := hm
        rw [hmp]
        exact hfc
      refine ⟨.InconsistentFolding k ((foldSpec (k + 1) evals params.domain_0 t1).2.2.1) v2,
        ?_, Or.inr ⟨k, (foldSpec (k + 1) evals params.domain_0 t1).2.2.1, v2, rfl⟩⟩
      rw [Verifier.verify, hrec2]
      show Verifier.verify_queries_loop g params Pf2 (proveChain (k + 1) poly params).2.1
          ((i2 :: restI).zip Pf2.query_decommitments) =
        .error (.InconsistentFolding k
          ((foldSpec (k + 1) evals params.domain_0 t1).2.2.1) v2)
      rw [hdecs, List.zip_cons_cons, Verifier.verify_queries_loop, hvq]
    · -- a Merkle check failed
      have hvq : Verifier.verify_query g params Pf2 i2
          (proveChain (k + 1) poly params).2.1 dec0 = .error .InvalidMerkleProof := by
        rw [Verifier.verify_query]
        have hmp : Verifier.verify_merkle_paths params Pf2 i2 dec0 =
            .error .InvalidMerkleProof := hm
        rw [hmp]
      refine ⟨.InvalidMerkleProof, ?_, Or.inl rfl⟩
      rw [Verifier.verify, hrec2]
      show Verifier.verify_queries_loop g params Pf2 (proveChain (k + 1) poly params).2.1
          ((i2 :: restI).zip Pf2.query_decommitments) = .error .InvalidMerkleProof
      rw [hdecs, List.zip_cons_cons, Verifier.verify_queries_loop, hvq]

/-- Witness for the amended C5 at `p = [5]`, `claimed_degree = 0`,
`blowup_factor = 2`, `num_queries = 1`, tampered value `6 ≠ 5`. -/
theorem C5_tamper_rejected_witness :
    ((0 + 1) * 2 = 2 ^ (0 + 1) ∧ (2013265920 : F) ^ 2 ^ 0 = -1 ∧ 1 ≤ 1 ∧
      (6 : F) ≠ (proveProofSpec (0 + 1) [(5 : F)]
        (FriParameters.new 2013265920 0 2 1)).last_layer_value) ∧
    ∃ e : FriError,
      Verifier.verify 2013265920 (FriParameters.new 2013265920 0 2 1)
        { proveProofSpec (0 + 1) [(5 : F)] (FriParameters.new 2013265920 0 2 1) with
          last_layer_value := 6 } = .error e ∧
      (e = .InvalidMerkleProof ∨ ∃ layer exp got, e = .InconsistentFolding layer exp got) :=
  have hne : (6 : F) ≠ (proveProofSpec (0 + 1) [(5 : F)]
      (FriParameters.new 2013265920 0 2 1)).last_layer_value := by
    rw [proveProofSpec_last_const]
    decide
  ⟨⟨by norm_num, by decide, by norm_num, hne⟩,
    C5_tamper_rejected 2013265920 [(5 : F)] 0 2 1 0 6 (by norm_num) (by decide)
      (by norm_num) hne⟩

-- ---------------------------------------------------------------------------
-- The out-of-domain check (src/4_air_constraints_design/src/main.rs,
-- `Composition::perform_ood_check`, 240–294).  Rust's `assert_eq!` and the
-- `.unwrap()` calls abort the process; this is modelled by the `panic`
-- outcome carrying the panic message.
-- ---------------------------------------------------------------------------

/-- The possible outcomes of running `Composition::perform_ood_check`: normal
return, or a process abort (`assert_eq!` / `.unwrap()` panic). -/
inductive OodOutcome
  | success
  | panic (msg : String)
deriving DecidableEq, Repr

/-- `Polynomial::interpolate(&[x0, x1], &[y0, y1])`: the unique polynomial of
degree at most 1 through two points with distinct abscissas (coefficient
list, constant first). -/
def interpolate2 (x0 x1 y0 y1 : F) : List F :=
  let m := (y1 - y0) * (x1 - x0)⁻¹
  [y0 - m * x0, m]

/-- The verifier-side reconstruction `h_z_reconstructed = boundary_eval_z *
alpha1 + transition_eval_z * alpha2` computed inside `perform_ood_check`
from the claimed evaluations `t(z)`, `t(z*g)`, `t(z*g^2)`. -/
def ood_reconstructed (domain : List F) (trace_length : Nat) (g : F)
    (trace_poly : List F) (alpha1 alpha2 z : F) : F :=
  let t_z := evalPoly trace_poly z
  let t_zg := evalPoly trace_poly (z * g)
  let t_zg2 := evalPoly trace_poly (z * (g * g))
  let boundary_eval_z :=
    (t_z - evalPoly (interpolate2 (domain.getD 0 0) (domain.getD 1 0) 1 1) z)
      * ((z - domain.getD 0 0) * (z - domain.getD 1 0))⁻¹
  let transition_zerofier_z := (z ^ trace_length - 1)
      * ((z - domain.getD (trace_length - 2) 0)
          * (z - domain.getD (trace_length - 1) 0))⁻¹
  let transition_eval_z := (t_zg2 - t_zg - t_z) * transition_zerofier_z⁻¹
  boundary_eval_z * alpha1 + transition_eval_z * alpha2

/-- `Composition::perform_ood_check`.  The trace polynomial and the
composition polynomial are passed in coefficient form; `domain` and
`trace_length` are the fields of the `Arithmetization`.  Each `.unwrap()`
on a field inversion and the final `assert_eq!` become `panic` outcomes. -/
def perform_ood_check (domain : List F) (trace_length : Nat) (g : F)
    (trace_poly composition_poly : List F) (alpha1 alpha2 z : F) : OodOutcome :=
  let h_z := evalPoly composition_poly z
  if domain.getD 0 0 = domain.getD 1 0 then
    .panic "duplicate interpolation point"
  else if (z - domain.getD 0 0) * (z - domain.getD 1 0) = 0 then
    .panic "inversion of zero"
  else if (z - domain.getD (trace_length - 2) 0)
      * (z - domain.getD (trace_length - 1) 0) = 0 then
    .panic "inversion of zero"
  else if (z ^ trace_length - 1)
      * ((z - domain.getD (trace_length - 2) 0)
          * (z - domain.getD (trace_length - 1) 0))⁻¹ = 0 then
    .panic "inversion of zero"
  else if h_z = ood_reconstructed domain trace_length g trace_poly alpha1 alpha2 z then
    .success
  else
    .panic "Out-of-domain check failed!"
/-- **C4 (amended).** When the reconstructed `H(z)` disagrees with the
prover's `H(z)` (and the inverted quantities are nonzero, so no earlier
`.unwrap()` fires), `perform_ood_check` does not return a typed error to
its caller: it panics with the `assert_eq!` message
"Out-of-domain check failed!".  Moreover the error enum `FriError` has no
`OutOfDomainMismatch` variant at all — its only variants are
`MerkleTreeConstructionError`, `InvalidMerkleProof` and
`InconsistentFolding`. -/
theorem C4_ood_mismatch_panics (domain : List F) (trace_length : Nat) (g : F)
    (trace_poly composition_poly : List F) (alpha1 alpha2 z : F)
    (hd01 : domain.getD 0 0 ≠ domain.getD 1 0)
    (hbz : (z - domain.getD 0 0) * (z - domain.getD 1 0) ≠ 0)
    (hex : (z - domain.getD (trace_length - 2) 0)
      * (z - domain.getD (trace_length - 1) 0) ≠ 0)
    (htz : (z ^ trace_length - 1)
      * ((z - domain.getD (trace_length - 2) 0)
          * (z - domain.getD (trace_length - 1) 0))⁻¹ ≠ 0)
    (hmis : evalPoly composition_poly z ≠
      ood_reconstructed domain trace_length g trace_poly alpha1 alpha2 z) :
    perform_ood_check domain trace_length g trace_poly composition_poly alpha1 alpha2 z =
      .panic "Out-of-domain check failed!" ∧
    ∀ e : FriError, (∃ m, e = .MerkleTreeConstructionError m) ∨
      e = .InvalidMerkleProof ∨ ∃ l x y, e = .InconsistentFolding l x y := by
  constructor
  · rw [perform_ood_check]
    rw [if_neg hd01, if_neg hbz, if_neg hex, if_neg htz, if_neg hmis]
  · intro e
    cases e with
    | MerkleTreeConstructionError m => exact Or.inl ⟨m, rfl⟩
    | InvalidMerkleProof => exact Or.inr (Or.inl rfl)
    | InconsistentFolding l x y => exact Or.inr (Or.inr ⟨l, x, y, rfl⟩)

/-- Counterexample to C4 as stated: at a concrete mismatching input the
out-of-domain check panics (aborting the process) instead of returning an
`OutOfDomainMismatch` error value — `FriError` has no such variant. -/
theorem C4_counterexample :
    perform_ood_check [1, 2, 3, 4] 4 13 [] [1] 0 0 5 =
      .panic "Out-of-domain check failed!" := by
  rw [perform_ood_check]
  rw [if_neg (by decide : ¬(([1, 2, 3, 4] : List F).getD 0 0 = ([1, 2, 3, 4] : List F).getD 1 0))]
  rw [if_neg (by decide : ¬(((5 : F) - ([1, 2, 3, 4] : List F).getD 0 0)
    * ((5 : F) - ([1, 2, 3, 4] : List F).getD 1 0) = 0))]
  rw [if_neg (by decide : ¬(((5 : F) - ([1, 2, 3, 4] : List F).getD (4 - 2) 0)
    * ((5 : F) - ([1, 2, 3, 4] : List F).getD (4 - 1) 0) = 0))]
  rw [if_neg (mul_ne_zero (by decide : ((5 : F) ^ 4 - 1) ≠ 0)
    (inv_ne_zero (by decide : (((5 : F) - ([1, 2, 3, 4] : List F).getD (4 - 2) 0)
      * ((5 : F) - ([1, 2, 3, 4] : List F).getD (4 - 1) 0)) ≠ 0)))]
  rw [if_neg ?hmis]
  case hmis =>
    simp only [ood_reconstructed, evalPoly, List.foldr, mul_zero, add_zero, zero_add]
    decide

/-- Witness for the amended C4 at the concrete mismatching input of the
counterexample. -/
theorem C4_ood_mismatch_panics_witness :
    (([1, 2, 3, 4] : List F).getD 0 0 ≠ ([1, 2, 3, 4] : List F).getD 1 0) ∧
    (perform_ood_check [1, 2, 3, 4] 4 13 [] [1] 0 0 5 =
        .panic "Out-of-domain check failed!" ∧
      ∀ e : FriError, (∃ m, e = .MerkleTreeConstructionError m) ∨
        e = .InvalidMerkleProof ∨ ∃ l x y, e = .InconsistentFolding l x y) :=
  ⟨by decide,
    C4_ood_mismatch_panics [1, 2, 3, 4] 4 13 [] [1] 0 0 5 (by decide) (by decide)
      (by decide) (mul_ne_zero (by decide) (inv_ne_zero (by decide)))
      (by simp only [ood_reconstructed, evalPoly, List.foldr, mul_zero, add_zero,
            zero_add]
          decide)⟩
theorem natCast3 : ((3 : Nat) : F) = (3 : F) := by norm_cast

theorem three_pow_2_27 : (3 : F) ^ (2 ^ 27) ≠ 1 := by
  have h := powMod_spec 3 (2 ^ 27) (by norm_num)
  rw [natCast3] at h
  rw [← h]
  decide

/-- The coset offset `3` is outside every subgroup of 2-power order: no power
`3^(2^m)` is `1` (its multiplicative order divides `15 * 2^27` but is not a
divisor of `2^27`). -/
theorem three_pow_two_pow_ne_one (m : Nat) : (3 : F) ^ 2 ^ m ≠ 1 := by
  intro hone
  have h3 : (3 : F) ≠ 0 := by decide
  have hord : orderOf (3 : F) ∣ 2 ^ m := orderOf_dvd_of_pow_eq_one hone
  have hcard : (3 : F) ^ (P - 1) = 1 := ZMod.pow_card_sub_one_eq_one h3
  have hord2 : orderOf (3 : F) ∣ P - 1 := orderOf_dvd_of_pow_eq_one hcard
  obtain ⟨a, _, hae⟩ := (Nat.dvd_prime_pow Nat.prime_two).1 hord
  have hsplit : (P - 1 : Nat) = 15 * 2 ^ 27 := by norm_num
  rw [hae, hsplit] at hord2
  have hcop : Nat.Coprime (2 ^ a) 15 := Nat.Coprime.pow_left a (by norm_num)
  have h27 : (2 : Nat) ^ a ∣ 2 ^ 27 := (Nat.Coprime.dvd_mul_left hcop).1 hord2
  have hdvd27 : orderOf (3 : F) ∣ 2 ^ 27 := by rw [hae]; exact h27
  exact three_pow_2_27 (orderOf_dvd_iff_pow_eq_one.1 hdvd27)

theorem sum_range_list (n : Nat) (f : Nat → F) :
    ((List.range n).map f).sum = ∑ k ∈ Finset.range n, f k := by
  induction n with
  | zero => rfl
  | succ m ih => rw [List.range_succ, List.map_append, List.sum_append,
      Finset.sum_range_succ, ih, List.map_cons, List.map_nil, List.sum_cons, List.sum_nil,
      add_zero]

theorem evalPoly_sum (c : List F) (x : F) :
    evalPoly c x = ∑ k ∈ Finset.range c.length, c.getD k 0 * x ^ k := by
  induction c with
  | nil => rw [evalPoly_nil]; rfl
  | cons a t ih =>
    rw [evalPoly_cons, ih, List.length_cons, Finset.sum_range_succ']
    rw [Finset.mul_sum]
    simp only [List.getD_cons_succ, List.getD_cons_zero, pow_zero, mul_one, pow_succ]
    rw [add_comm]
    congr 1
    refine Finset.sum_congr rfl (fun k _ => by ring)

/-- `Polynomial::interpolate_fft(trace)` (external FFT interpolation from
lambdaworks): the inverse DFT with respect to the subgroup generator `g`,
`c_k = n^{-1} * Σ_j v_j * g^{-jk}`, as an executable coefficient list. -/
def interpolate_fft (g : F) (v : List F) : List F :=
  (List.range v.length).map (fun k =>
    (v.length : F)⁻¹ * ((List.range v.length).map
      (fun j => v.getD j 0 * (g ^ (j * k))⁻¹)).sum)

theorem interpolate_fft_length (g : F) (v : List F) :
    (interpolate_fft g v).length = v.length := by
  rw [interpolate_fft, List.length_map, List.length_range]

/-- The contract of `get_primitive_root_of_unity`: a finite check that all
proper powers differ from `1` upgrades `g` to a primitive root. -/
theorem isPrimitiveRoot_of_checks (g : F) (n : Nat) (hn : 0 < n) (hg1 : g ^ n = 1)
    (hfin : ∀ i ∈ Finset.range n, 0 < i → g ^ i ≠ 1) : IsPrimitiveRoot g n := by
  have hgz : g ≠ 0 := by
    intro h0
    rw [h0, zero_pow (by omega : n ≠ 0)] at hg1
    exact zero_ne_one hg1
  refine ⟨hg1, fun l hl => ?_⟩
  have hkey : l % n = l - n * (l / n) := by
    have := Nat.mod_add_div l n
    omega
  have hle : n * (l / n) ≤ l := by
    have := Nat.mod_add_div l n
    omega
  have hmod : g ^ (l % n) = 1 := by
    rw [hkey, pow_sub₀ _ hgz hle, hl, pow_mul, hg1, one_pow, one_mul, inv_one]
  by_cases hz : l % n = 0
  · exact Nat.dvd_of_mod_eq_zero hz
  · exact absurd hmod (hfin (l % n) (Finset.mem_range.2 (Nat.mod_lt l hn)) (by omega))

/-- DFT inversion: the interpolated polynomial matches the values on the
subgroup generated by a primitive `n`-th root. -/
theorem interpolate_fft_eval (g : F) (v : List F) (n : Nat) (hlen : v.length = n)
    (hn : 0 < n) (hnF : (n : F) ≠ 0) (hprim : IsPrimitiveRoot g n)
    (i : Nat) (hi : i < n) :
    evalPoly (interpolate_fft g v) (g ^ i) = v.getD i 0 := by
  have hg1 : g ^ n = 1 := hprim.pow_eq_one
  have hg0 : g ≠ 0 := by
    intro h0
    rw [h0, zero_pow (by omega : n ≠ 0)] at hg1
    exact zero_ne_one hg1
  have hlen2 : (interpolate_fft g v).length = n := by rw [interpolate_fft_length, hlen]
  rw [evalPoly_sum, hlen2]
  have hterm : ∀ k ∈ Finset.range n,
      (interpolate_fft g v).getD k 0 * (g ^ i) ^ k =
        ∑ j ∈ Finset.range n, (n : F)⁻¹ * (v.getD j 0 * (g ^ i * (g ^ j)⁻¹) ^ k) := by
    intro k hk
    have hget : (interpolate_fft g v).getD k 0 =
        (v.length : F)⁻¹ * ((List.range v.length).map
          (fun j => v.getD j 0 * (g ^ (j * k))⁻¹)).sum := by
      rw [interpolate_fft]
      rw [getD_map_range]
      rw [hlen]
      exact Finset.mem_range.1 hk
    rw [hget, hlen, sum_range_list, mul_assoc, Finset.sum_mul, Finset.mul_sum]
    refine Finset.sum_congr rfl (fun j _ => ?_)
    have hpow : (g ^ (j * k))⁻¹ * (g ^ i) ^ k = (g ^ i * (g ^ j)⁻¹) ^ k := by
      rw [mul_pow, pow_mul, ← inv_pow]
      ring
    rw [← hpow]
    ring
  rw [Finset.sum_congr rfl hterm, Finset.sum_comm]
  have hinner : ∀ j ∈ Finset.range n,
      (∑ k ∈ Finset.range n, (n : F)⁻¹ * (v.getD j 0 * (g ^ i * (g ^ j)⁻¹) ^ k)) =
        if j = i then v.getD i 0 else 0 := by
    intro j hj
    by_cases hji : j = i
    · subst hji
      rw [if_pos rfl]
      have hx1 : g ^ j * (g ^ j)⁻¹ = 1 := mul_inv_cancel₀ (pow_ne_zero j hg0)
      simp only [hx1, one_pow, mul_one]
      rw [Finset.sum_const, Finset.card_range, nsmul_eq_mul, ← mul_assoc,
        mul_inv_cancel₀ hnF, one_mul]
    · rw [if_neg hji]
      set x := g ^ i * (g ^ j)⁻¹ with hxdef
      have hxn : x ^ n = 1 := by
        rw [hxdef, mul_pow, inv_pow, ← pow_mul, ← pow_mul, mul_comm i n, mul_comm j n,
          pow_mul, pow_mul, hg1, one_pow, one_pow, inv_one, mul_one]
      have hxne : x ≠ 1 := by
        intro hx1
        apply hji
        have h1 : x * g ^ j = g ^ i := by
          rw [hxdef, mul_assoc, inv_mul_cancel₀ (pow_ne_zero j hg0), mul_one]
        have hpow : g ^ j = g ^ i := by rw [← h1, hx1, one_mul]
        exact hprim.pow_inj (Finset.mem_range.1 hj) hi hpow
      have hgeom : (∑ k ∈ Finset.range n, x ^ k) = 0 := by
        have hmul := geom_sum_mul x n
        rw [hxn, sub_self] at hmul
        rcases mul_eq_zero.1 hmul with h | h
        · exact h
        · exact absurd (by rwa [sub_eq_zero] at h) hxne
      calc (∑ k ∈ Finset.range n, (n : F)⁻¹ * (v.getD j 0 * x ^ k))
          = ((n : F)⁻¹ * v.getD j 0) * ∑ k ∈ Finset.range n, x ^ k := by
            rw [Finset.mul_sum]
            exact Finset.sum_congr rfl (fun k _ => by ring)
        _ = 0 := by rw [hgeom, mul_zero]
  rw [Finset.sum_congr rfl hinner,
    Finset.sum_ite_eq' (Finset.range n) i (fun _ => v.getD i 0)]
  rw [if_pos (Finset.mem_range.2 hi)]

-- ---------------------------------------------------------------------------
-- The AIR arithmetization (src/4_air_constraints_design/src/main.rs,
-- `generate_fibonacci_trace` 19–29 and `Arithmetization::new` 54–191).
-- External primitives: `get_primitive_root_of_unity` and
-- `get_powers_of_primitive_root_coset` are modelled by the parameters `g`
-- (trace-domain generator) and `ω` (LDE-domain generator) with their
-- root-of-unity contracts as hypotheses; `interpolate_fft` is the inverse
-- DFT above; `inplace_batch_inverse(..).unwrap()` is `batchInverse`, which
-- fails exactly when a zero is present.
-- ---------------------------------------------------------------------------

/-- `generate_fibonacci_trace` unrolled: `fibFrom n a b` is the length-`n`
sequence starting `a, b` with each entry the sum of the previous two. -/
def fibFrom : Nat → F → F → List F
  | 0, _, _ => []
  | n + 1, a, b => a :: fibFrom n b (a + b)

/-- `generate_fibonacci_trace(trace_length)`: `trace[0] = trace[1] = 1`,
`trace[i] = trace[i-1] + trace[i-2]`. -/
def generate_fibonacci_trace (trace_length : Nat) : List F :=
  fibFrom trace_length 1 1

theorem fibFrom_length (n : Nat) (a b : F) : (fibFrom n a b).length = n := by
  induction n generalizing a b with
  | zero => rfl
  | succ m ih => rw [fibFrom, List.length_cons, ih]

theorem fibFrom_step (n : Nat) (a b : F) (i : Nat) (h : i + 2 < n) :
    (fibFrom n a b).getD (i + 2) 0 =
      (fibFrom n a b).getD (i + 1) 0 + (fibFrom n a b).getD i 0 := by
  induction i generalizing n a b with
  | zero =>
    obtain ⟨m, rfl⟩ : ∃ m, n = m + 3 := ⟨n - 3, by omega⟩
    show a + b = b + a
    ring
  | succ k ih =>
    obtain ⟨m, rfl⟩ : ∃ m, n = m + 1 := ⟨n - 1, by omega⟩
    show (a :: fibFrom m b (a + b)).getD (k + 3) 0 = _
    rw [List.getD_cons_succ]
    rw [show (fibFrom (m + 1) a b).getD (k + 2) 0 = (fibFrom m b (a + b)).getD (k + 1) 0
      from rfl]
    rw [show (fibFrom (m + 1) a b).getD (k + 1) 0 = (fibFrom m b (a + b)).getD k 0 from rfl]
    exact ih m b (a + b) (by omega)

theorem generate_fibonacci_trace_facts (n : Nat) (hn : 2 ≤ n) :
    (generate_fibonacci_trace n).length = n ∧
    (generate_fibonacci_trace n).getD 0 0 = 1 ∧
    (generate_fibonacci_trace n).getD 1 0 = 1 ∧
    (∀ i, i + 2 < n → (generate_fibonacci_trace n).getD (i + 2) 0 =
      (generate_fibonacci_trace n).getD (i + 1) 0 +
        (generate_fibonacci_trace n).getD i 0) := by
  refine ⟨fibFrom_length n 1 1, ?_, ?_, fun i hi => fibFrom_step n 1 1 i hi⟩
  · obtain ⟨m, rfl⟩ : ∃ m, n = m + 2 := ⟨n - 2, by omega⟩
    rfl
  · obtain ⟨m, rfl⟩ : ∃ m, n = m + 2 := ⟨n - 2, by omega⟩
    rfl

/-- `FieldElement::inplace_batch_inverse(..)` followed by `.unwrap()`:
fails exactly when the list contains a zero, otherwise inverts pointwise. -/
def batchInverse (l : List F) : Option (List F) :=
  if (0 : F) ∈ l then none else some (l.map (fun x => x⁻¹))

theorem batchInverse_eq_some (l : List F) (h : (0 : F) ∉ l) :
    batchInverse l = some (l.map (fun x => x⁻¹)) := by
  rw [batchInverse, if_neg h]

/-- The fields of `struct Arithmetization`. -/
structure Arithmetization where
  trace_length : Nat
  domain : List F
  domain_generator : F
  trace_poly : List F
  boundary_constraint_poly_lde : List F
  transition_constraint_poly_lde : List F
  lde_domain : List F
deriving Repr

/-- `Arithmetization::new(trace, blowup_factor)`.  `g` and `ω` stand for the
externally provided primitive roots of order `trace.length` and
`trace.length * blowup_factor`; the LDE domain is the coset
`{3 * ω^j}`.  Each `inplace_batch_inverse(..).unwrap()` that would panic
on a zero makes the result `none`. -/
def Arithmetization.new (g ω : F) (trace : List F) (blowup_factor : Nat) :
    Option Arithmetization :=
  let trace_length := trace.length
  let domain := (List.range trace_length).map (fun i => g ^ i)
  let trace_poly := interpolate_fft g trace
  let lde_domain_size := trace_length * blowup_factor
  let lde_domain := (List.range lde_domain_size).map (fun j => (3 : F) * ω ^ j)
  let trace_poly_lde := lde_domain.map (evalPoly trace_poly)
  let boundary_interpolant := interpolate2 (domain.getD 0 0) (domain.getD 1 0) 1 1
  let boundary_zerofier_poly :=
    polyMul [-(domain.getD 0 0), 1] [-(domain.getD 1 0), 1]
  let numerator_lde := (trace_poly_lde.zip lde_domain).map
    (fun p => p.1 - evalPoly boundary_interpolant p.2)
  let denominator_lde := lde_domain.map (evalPoly boundary_zerofier_poly)
  (batchInverse denominator_lde).bind (fun denominator_inv_lde =>
    let boundary_constraint_poly_lde :=
      (numerator_lde.zip denominator_inv_lde).map (fun p => p.1 * p.2)
    let trace_lde_g := (lde_domain.map (fun x => x * g)).map (evalPoly trace_poly)
    let trace_lde_g2 :=
      (lde_domain.map (fun x => x * (g * g))).map (evalPoly trace_poly)
    let numerator_lde_t := ((trace_lde_g2.zip trace_lde_g).zip trace_poly_lde).map
      (fun p => p.1.1 - p.1.2 - p.2)
    let transition_exemptions_poly :=
      polyMul [-(domain.getD (trace_length - 2) 0), 1]
        [-(domain.getD (trace_length - 1) 0), 1]
    (batchInverse (lde_domain.map (evalPoly transition_exemptions_poly))).bind
      (fun exemptions_inv_lde =>
        let denominator_lde_t := (lde_domain.zip exemptions_inv_lde).map
          (fun p => (p.1 ^ trace_length - 1) * p.2)
        (batchInverse denominator_lde_t).bind (fun denominator_inv_lde_t =>
          let transition_constraint_poly_lde :=
            (numerator_lde_t.zip denominator_inv_lde_t).map (fun p => p.1 * p.2)
          some ⟨trace_length, domain, g, trace_poly, boundary_constraint_poly_lde,
            transition_constraint_poly_lde, lde_domain⟩)))

theorem evalPoly_linear (a x : F) : evalPoly [-a, 1] x = x - a := by
  rw [evalPoly_cons, evalPoly_cons, evalPoly_nil]
  ring

theorem evalPoly_zerofier (a b x : F) :
    evalPoly (polyMul [-a, 1] [-b, 1]) x = (x - a) * (x - b) := by
  rw [evalPoly_polyMul, evalPoly_linear, evalPoly_linear]

theorem evalPoly_interpolate2_ones (a b x : F) (hab : a ≠ b) :
    evalPoly (interpolate2 a b 1 1) x = 1 := by
  rw [interpolate2]
  show evalPoly [1 - (1 - 1) * (b - a)⁻¹ * a, (1 - 1) * (b - a)⁻¹] x = 1
  rw [evalPoly_cons, evalPoly_cons, evalPoly_nil]
  ring

theorem zip_sub_eval_map (l : List F) (f : F → F) (c : List F) :
    ((l.map f).zip l).map (fun p => p.1 - evalPoly c p.2) =
      l.map (fun x => f x - evalPoly c x) := by
  induction l with
  | nil => rfl
  | cons a t ih => simp only [List.map_cons, List.zip_cons_cons, ih]

theorem zip_pow_sub_mul_map (l : List F) (f : F → F) (n : Nat) :
    (l.zip (l.map f)).map (fun p => (p.1 ^ n - 1) * p.2) =
      l.map (fun x => (x ^ n - 1) * f x) := by
  induction l with
  | nil => rfl
  | cons a t ih => simp only [List.map_cons, List.zip_cons_cons, ih]

theorem zip_mul_map (l : List F) (f g : F → F) :
    ((l.map f).zip (l.map g)).map (fun p => p.1 * p.2) =
      l.map (fun x => f x * g x) := by
  induction l with
  | nil => rfl
  | cons a t ih => simp only [List.map_cons, List.zip_cons_cons, ih]

theorem zip3_sub_sub_map (l : List F) (f g h : F → F) :
    (((l.map f).zip (l.map g)).zip (l.map h)).map (fun p => p.1.1 - p.1.2 - p.2) =
      l.map (fun x => f x - g x - h x) := by
  induction l with
  | nil => rfl
  | cons a t ih => simp only [List.map_cons, List.zip_cons_cons, ih]

theorem map_map_fun (l : List F) (f h : F → F) :
    (l.map f).map h = l.map (fun x => h (f x)) := by
  rw [List.map_map]
  rfl

/-- Points of the coset LDE domain `{3 * ω^j}` never meet the trace
subgroup `{g^i}`: raising to the power `n * b = 2^m` sends the former to
`3^(2^m) ≠ 1` and the latter to `1`. -/
theorem coset_ne_trace_pow (g ω : F) (n b m : Nat) (hnb : n * b = 2 ^ m)
    (hg1 : g ^ n = 1) (hω1 : ω ^ (n * b) = 1) (j i : Nat) :
    (3 : F) * ω ^ j ≠ g ^ i := by
  intro heq
  have h1 : ((3 : F) * ω ^ j) ^ (n * b) = 3 ^ (n * b) * (ω ^ (n * b)) ^ j := by ring
  rw [hω1, one_pow, mul_one] at h1
  have h2 : (g ^ i) ^ (n * b) = (g ^ n) ^ (i * b) := by ring
  rw [hg1, one_pow] at h2
  rw [heq, h2, hnb] at h1
  exact three_pow_two_pow_ne_one m h1.symm

/-- No coset LDE point is an `n`-th root of unity. -/
theorem coset_pow_n_ne_one (ω : F) (n b m : Nat) (hnb : n * b = 2 ^ m)
    (hω1 : ω ^ (n * b) = 1) (j : Nat) :
    ((3 : F) * ω ^ j) ^ n ≠ 1 := by
  intro h1
  have h2 : ((3 : F) * ω ^ j) ^ (n * b) = 3 ^ (n * b) * (ω ^ (n * b)) ^ j := by ring
  rw [hω1, one_pow, mul_one] at h2
  rw [pow_mul, h1, one_pow, hnb] at h2
  exact three_pow_two_pow_ne_one m h2.symm

/-- Reduction of `Arithmetization::new` when no batch inversion hits a zero:
all pipelines collapse to pointwise maps over the coset LDE domain. -/
theorem Arithmetization.new_eq (g ω : F) (trace : List F) (b : Nat)
    (hn2 : 2 ≤ trace.length)
    (h1 : ∀ x ∈ (List.range (trace.length * b)).map (fun j => (3 : F) * ω ^ j),
      (x - g ^ 0) * (x - g ^ 1) ≠ 0)
    (h2 : ∀ x ∈ (List.range (trace.length * b)).map (fun j => (3 : F) * ω ^ j),
      (x - g ^ (trace.length - 2)) * (x - g ^ (trace.length - 1)) ≠ 0)
    (h3 : ∀ x ∈ (List.range (trace.length * b)).map (fun j => (3 : F) * ω ^ j),
      (x ^ trace.length - 1) *
        ((x - g ^ (trace.length - 2)) * (x - g ^ (trace.length - 1)))⁻¹ ≠ 0) :
    Arithmetization.new g ω trace b = some {
      trace_length := trace.length
      domain := (List.range trace.length).map (fun i => g ^ i)
      domain_generator := g
      trace_poly := interpolate_fft g trace
      boundary_constraint_poly_lde := ((List.range (trace.length * b)).map
        (fun j => (3 : F) * ω ^ j)).map (fun x =>
          (evalPoly (interpolate_fft g trace) x -
            evalPoly (interpolate2 (g ^ 0) (g ^ 1) 1 1) x) *
          ((x - g ^ 0) * (x - g ^ 1))⁻¹)
      transition_constraint_poly_lde := ((List.range (trace.length * b)).map
        (fun j => (3 : F) * ω ^ j)).map (fun x =>
          (evalPoly (interpolate_fft g trace) (x * (g * g)) -
            evalPoly (interpolate_fft g trace) (x * g) -
            evalPoly (interpolate_fft g trace) x) *
          ((x ^ trace.length - 1) *
            ((x - g ^ (trace.length - 2)) * (x - g ^ (trace.length - 1)))⁻¹)⁻¹)
      lde_domain := (List.range (trace.length * b)).map (fun j => (3 : F) * ω ^ j) } := by
  have hd0 : ((List.range trace.length).map (fun i => g ^ i)).getD 0 0 = g ^ 0 :=
    getD_map_range _ _ _ _ (by omega)
  have hd1 : ((List.range trace.length).map (fun i => g ^ i)).getD 1 0 = g ^ 1 :=
    getD_map_range _ _ _ _ (by omega)
  have hdn2 : ((List.range trace.length).map (fun i => g ^ i)).getD
      (trace.length - 2) 0 = g ^ (trace.length - 2) :=
    getD_map_range _ _ _ _ (by omega)
  have hdn1 : ((List.range trace.length).map (fun i => g ^ i)).getD
      (trace.length - 1) 0 = g ^ (trace.length - 1) :=
    getD_map_range _ _ _ _ (by omega)
  have hbz1 : (0 : F) ∉ ((List.range (trace.length * b)).map
      (fun j => (3 : F) * ω ^ j)).map (evalPoly (polyMul [-(g ^ 0), 1] [-(g ^ 1), 1])) := by
    intro h0
    obtain ⟨y, hy, he⟩ := List.mem_map.1 h0
    rw [evalPoly_zerofier] at he
    exact h1 y hy he
  have hbz2 : (0 : F) ∉ ((List.range (trace.length * b)).map
      (fun j => (3 : F) * ω ^ j)).map (evalPoly (polyMul
        [-(g ^ (trace.length - 2)), 1] [-(g ^ (trace.length - 1)), 1])) := by
    intro h0
    obtain ⟨y, hy, he⟩ := List.mem_map.1 h0
    rw [evalPoly_zerofier] at he
    exact h2 y hy he
  have hbz3 : (0 : F) ∉ ((List.range (trace.length * b)).map
      (fun j => (3 : F) * ω ^ j)).map (fun x => (x ^ trace.length - 1) *
        (evalPoly (polyMul [-(g ^ (trace.length - 2)), 1]
          [-(g ^ (trace.length - 1)), 1]) x)⁻¹) := by
    intro h0
    obtain ⟨y, hy, he⟩ := List.mem_map.1 h0
    rw [evalPoly_zerofier] at he
    exact h3 y hy he
  simp only [Arithmetization.new]
  rw [hd0, hd1, hdn2, hdn1]
  rw [batchInverse_eq_some _ hbz1]
  simp only [Option.some_bind]
  rw [batchInverse_eq_some _ hbz2]
  simp only [Option.some_bind]
  rw [map_map_fun, zip_pow_sub_mul_map]
  rw [batchInverse_eq_some _ hbz3]
  simp only [Option.some_bind]
  rw [zip_sub_eval_map, map_map_fun, zip_mul_map]
  rw [map_map_fun, map_map_fun, zip3_sub_sub_map, map_map_fun, zip_mul_map]
  refine congrArg some ?_
  refine congrArg₂ (fun l1 l2 => Arithmetization.mk trace.length
    ((List.range trace.length).map (fun i => g ^ i)) g (interpolate_fft g trace) l1 l2
    ((List.range (trace.length * b)).map (fun j => (3 : F) * ω ^ j))) ?_ ?_
  · refine List.map_congr_left (fun x hx => ?_)
    rw [evalPoly_zerofier]
  · refine List.map_congr_left (fun x hx => ?_)
    rw [evalPoly_zerofier]

/-- **C6.** For a power-of-two trace length and blowup factor, the coset LDE
domain `{3 * ω^j}` built by `Arithmetization::new` is disjoint from the
trace subgroup `{g^i}`; consequently the boundary zerofier
`(x - g^0)(x - g^1)`, the transition exemption `(x - g^{n-2})(x - g^{n-1})`
and the transition zerofier `(x^n - 1) / exemptions` are nonzero at every
LDE point, and every `inplace_batch_inverse` call succeeds (the zero-element
error branch is unreachable, so `Arithmetization::new` returns a value). -/
theorem C6_coset_lde_disjoint (g ω : F) (trace : List F) (n b k m : Nat)
    (hlen : trace.length = n) (hnpow : n = 2 ^ k) (hk : 1 ≤ k)
    (hnb : n * b = 2 ^ m) (hg1 : g ^ n = 1) (hω1 : ω ^ (n * b) = 1) :
    (∀ j i : Nat, (3 : F) * ω ^ j ≠ g ^ i) ∧
    (∀ j : Nat,
      ((3 : F) * ω ^ j - g ^ 0) * ((3 : F) * ω ^ j - g ^ 1) ≠ 0 ∧
      ((3 : F) * ω ^ j - g ^ (n - 2)) * ((3 : F) * ω ^ j - g ^ (n - 1)) ≠ 0 ∧
      (((3 : F) * ω ^ j) ^ n - 1) *
        (((3 : F) * ω ^ j - g ^ (n - 2)) * ((3 : F) * ω ^ j - g ^ (n - 1)))⁻¹ ≠ 0) ∧
    ∃ A : Arithmetization, Arithmetization.new g ω trace b = some A := by
  have hdis : ∀ j i : Nat, (3 : F) * ω ^ j ≠ g ^ i :=
    coset_ne_trace_pow g ω n b m hnb hg1 hω1
  have hz : ∀ j : Nat,
      ((3 : F) * ω ^ j - g ^ 0) * ((3 : F) * ω ^ j - g ^ 1) ≠ 0 ∧
      ((3 : F) * ω ^ j - g ^ (n - 2)) * ((3 : F) * ω ^ j - g ^ (n - 1)) ≠ 0 ∧
      (((3 : F) * ω ^ j) ^ n - 1) *
        (((3 : F) * ω ^ j - g ^ (n - 2)) * ((3 : F) * ω ^ j - g ^ (n - 1)))⁻¹ ≠ 0 := by
    intro j
    refine ⟨mul_ne_zero (sub_ne_zero.2 (hdis j 0)) (sub_ne_zero.2 (hdis j 1)),
      mul_ne_zero (sub_ne_zero.2 (hdis j (n - 2))) (sub_ne_zero.2 (hdis j (n - 1))),
      mul_ne_zero (sub_ne_zero.2 (coset_pow_n_ne_one ω n b m hnb hω1 j))
        (inv_ne_zero (mul_ne_zero (sub_ne_zero.2 (hdis j (n - 2)))
          (sub_ne_zero.2 (hdis j (n - 1)))))⟩
  have hn2 : 2 ≤ trace.length := by
    rw [hlen, hnpow]
    calc 2 = 2 ^ 1 := by norm_num
      _ ≤ 2 ^ k := Nat.pow_le_pow_right (by omega) hk
  have hmem : ∀ x ∈ (List.range (trace.length * b)).map (fun j => (3 : F) * ω ^ j),
      ∃ j : Nat, x = (3 : F) * ω ^ j := by
    intro x hx
    obtain ⟨j, _, he⟩ := List.mem_map.1 hx
    exact ⟨j, he.symm⟩
  refine ⟨hdis, hz, ?_⟩
  refine ⟨_, Arithmetization.new_eq g ω trace b hn2 ?_ ?_ ?_⟩
  · intro x hx
    obtain ⟨j, rfl⟩ := hmem x hx
    exact (hz j).1
  · intro x hx
    obtain ⟨j, rfl⟩ := hmem x hx
    rw [hlen]
    exact (hz j).2.1
  · intro x hx
    obtain ⟨j, rfl⟩ := hmem x hx
    rw [hlen]
    exact (hz j).2.2

/-- Witness for C6: `n = 4` (`g = 1728404513` of order 4), `b = 2`
(`ω = 1592366214` of order 8), Fibonacci trace `[1, 1, 2, 3]`. -/
theorem C6_coset_lde_disjoint_witness :
    (([1, 1, 2, 3] : List F).length = 4 ∧ 4 = 2 ^ 2 ∧ 1 ≤ 2 ∧ 4 * 2 = 2 ^ 3 ∧
      (1728404513 : F) ^ 4 = 1 ∧ (1592366214 : F) ^ (4 * 2) = 1) ∧
    ((∀ j i : Nat, (3 : F) * (1592366214 : F) ^ j ≠ (1728404513 : F) ^ i) ∧
     (∀ j : Nat,
       ((3 : F) * (1592366214 : F) ^ j - (1728404513 : F) ^ 0) *
         ((3 : F) * (1592366214 : F) ^ j - (1728404513 : F) ^ 1) ≠ 0 ∧
       ((3 : F) * (1592366214 : F) ^ j - (1728404513 : F) ^ (4 - 2)) *
         ((3 : F) * (1592366214 : F) ^ j - (1728404513 : F) ^ (4 - 1)) ≠ 0 ∧
       (((3 : F) * (1592366214 : F) ^ j) ^ 4 - 1) *
         (((3 : F) * (1592366214 : F) ^ j - (1728404513 : F) ^ (4 - 2)) *
           ((3 : F) * (1592366214 : F) ^ j - (1728404513 : F) ^ (4 - 1)))⁻¹ ≠ 0) ∧
     ∃ A : Arithmetization,
       Arithmetization.new 1728404513 1592366214 [1, 1, 2, 3] 2 = some A) :=
  ⟨⟨by decide, by norm_num, by norm_num, by norm_num, by decide, by decide⟩,
    C6_coset_lde_disjoint 1728404513 1592366214 [1, 1, 2, 3] 4 2 2 3
      (by decide) (by norm_num) (by norm_num) (by norm_num) (by decide) (by decide)⟩

/-- A polynomial vanishing at `m` pairwise distinct points is divisible by
the product of the corresponding linear factors. -/
theorem prod_range_X_sub_dvd (p : Polynomial F) (r : Nat → F) (m : Nat)
    (hinj : ∀ i j, i < m → j < m → r i = r j → i = j)
    (hroot : ∀ i, i < m → p.eval (r i) = 0) :
    (∏ i ∈ Finset.range m, (Polynomial.X - Polynomial.C (r i))) ∣ p := by
  induction m generalizing p with
  | zero => simpa using one_dvd p
  | succ mm ih =>
    have hdvd : (Polynomial.X - Polynomial.C (r mm)) ∣ p :=
      Polynomial.dvd_iff_isRoot.2 (hroot mm (by omega))
    obtain ⟨q, hq⟩ := hdvd
    have hq0 : ∀ i, i < mm → q.eval (r i) = 0 := by
      intro i hi
      have h := hroot i (by omega)
      rw [hq, Polynomial.eval_mul, Polynomial.eval_sub, Polynomial.eval_X,
        Polynomial.eval_C] at h
      have hne : r i - r mm ≠ 0 := sub_ne_zero.2 (fun he => by
        have := hinj i mm (by omega) (by omega) he
        omega)
      rcases mul_eq_zero.1 h with h' | h'
      · exact absurd h' hne
      · exact h'
    obtain ⟨s, hs⟩ := ih q (fun i j hi hj => hinj i j (by omega) (by omega)) hq0
    refine ⟨s, ?_⟩
    rw [hq, hs, Finset.prod_range_succ]
    ring

theorem prod_range_X_sub_monic (r : Nat → F) (m : Nat) :
    (∏ i ∈ Finset.range m, (Polynomial.X - Polynomial.C (r i))).Monic :=
  Polynomial.monic_prod_of_monic _ _ (fun i _ => Polynomial.monic_X_sub_C (r i))

theorem prod_range_X_sub_natDegree (r : Nat → F) (m : Nat) :
    (∏ i ∈ Finset.range m, (Polynomial.X - Polynomial.C (r i))).natDegree = m := by
  rw [Polynomial.natDegree_prod _ _ (fun i _ => Polynomial.X_sub_C_ne_zero (r i))]
  simp [Polynomial.natDegree_X_sub_C]

theorem prod_range_X_sub_eval (r : Nat → F) (m : Nat) (x : F) :
    (∏ i ∈ Finset.range m, (Polynomial.X - Polynomial.C (r i))).eval x =
      ∏ i ∈ Finset.range m, (x - r i) := by
  rw [Polynomial.eval_prod]
  exact Finset.prod_congr rfl (fun i _ => by
    rw [Polynomial.eval_sub, Polynomial.eval_X, Polynomial.eval_C])

/-- The quotient by a product of distinct monic linear factors keeps the
degree bound of the dividend. -/
theorem quotient_degree_le (p : Polynomial F) (r : Nat → F) (m d : Nat)
    (hdvd : (∏ i ∈ Finset.range m, (Polynomial.X - Polynomial.C (r i))) ∣ p)
    (hdeg : p.natDegree ≤ d) :
    ∃ q : Polynomial F,
      p = (∏ i ∈ Finset.range m, (Polynomial.X - Polynomial.C (r i))) * q ∧
      q.natDegree ≤ d := by
  obtain ⟨q, hq⟩ := hdvd
  refine ⟨q, hq, ?_⟩
  by_cases hq0 : q = 0
  · simp [hq0]
  · have hZ := (prod_range_X_sub_monic r m).ne_zero
    have hmul := Polynomial.natDegree_mul hZ hq0
    rw [← hq, prod_range_X_sub_natDegree] at hmul
    omega

/-- **C7.** For the Fibonacci trace of power-of-two length `n = 2^k ≥ 4`,
the boundary quotient `B(x) = (t(x) - I(x)) / Z_B(x)` and the transition
quotient `T(x) = (t(g^2 x) - t(g x) - t(x)) / Z_T(x)` whose LDE evaluations
`Arithmetization::new` computes are evaluations of polynomials of degree at
most `n - 1` (the divisions are exact). -/
theorem C7_quotient_degrees (g ω : F) (n b k m : Nat)
    (hnpow : n = 2 ^ k) (hk : 2 ≤ k) (hnb : n * b = 2 ^ m)
    (hg1 : g ^ n = 1)
    (hgfin : ∀ i ∈ Finset.range n, 0 < i → g ^ i ≠ 1)
    (hω1 : ω ^ (n * b) = 1) :
    ∃ (A : Arithmetization) (B T : Polynomial F),
      Arithmetization.new g ω (generate_fibonacci_trace n) b = some A ∧
      B.natDegree ≤ n - 1 ∧ T.natDegree ≤ n - 1 ∧
      A.boundary_constraint_poly_lde = A.lde_domain.map (fun x => B.eval x) ∧
      A.transition_constraint_poly_lde = A.lde_domain.map (fun x => T.eval x) := by
  have hn4 : 4 ≤ n := by
    rw [hnpow]
    calc (4 : Nat) = 2 ^ 2 := by norm_num
      _ ≤ 2 ^ k := Nat.pow_le_pow_right (by omega) hk
  have hn0 : 0 < n := by omega
  have hnF : (n : F) ≠ 0 := by
    rw [hnpow]
    push_cast
    exact pow_ne_zero k two_ne_zero_F
  have hprim : IsPrimitiveRoot g n := isPrimitiveRoot_of_checks g n hn0 hg1 hgfin
  obtain ⟨hlen, htr0, htr1, htrstep⟩ := generate_fibonacci_trace_facts n (by omega)
  have heval : ∀ i, i < n → (toPoly (interpolate_fft g (generate_fibonacci_trace n))).eval
      (g ^ i) = (generate_fibonacci_trace n).getD i 0 := by
    intro i hi
    rw [toPoly_eval]
    exact interpolate_fft_eval g _ n hlen hn0 hnF hprim i hi
  have hdeg_t : (toPoly (interpolate_fft g (generate_fibonacci_trace n))).natDegree ≤
      n - 1 := by
    have h := toPoly_natDegree_le (interpolate_fft g (generate_fibonacci_trace n))
    rwa [interpolate_fft_length, hlen] at h
  set t := toPoly (interpolate_fft g (generate_fibonacci_trace n)) with ht
  -- Boundary quotient.
  have hNbroots : ∀ i, i < 2 → (t - Polynomial.C 1).eval (g ^ i) = 0 := by
    intro i hi
    rw [Polynomial.eval_sub, Polynomial.eval_C]
    interval_cases i
    · rw [heval 0 (by omega), htr0, sub_self]
    · rw [heval 1 (by omega), htr1, sub_self]
  have hBdvd := prod_range_X_sub_dvd (t - Polynomial.C 1) (fun i => g ^ i) 2
    (fun i j hi hj he => hprim.pow_inj (by omega) (by omega) he) hNbroots
  have hNbdeg : (t - Polynomial.C 1).natDegree ≤ n - 1 := by
    calc (t - Polynomial.C 1).natDegree ≤
        max t.natDegree (Polynomial.C (1 : F)).natDegree :=
        Polynomial.natDegree_sub_le _ _
      _ ≤ n - 1 := by rw [Polynomial.natDegree_C]; omega
  obtain ⟨B, hB, hBdeg⟩ := quotient_degree_le _ _ 2 (n - 1) hBdvd hNbdeg
  -- Transition quotient.
  set Nt := t.comp (Polynomial.C (g * g) * Polynomial.X) -
    t.comp (Polynomial.C g * Polynomial.X) - t with hNt
  have hNtEval : ∀ x : F, Nt.eval x = t.eval (g * g * x) - t.eval (g * x) - t.eval x := by
    intro x
    rw [hNt]
    rw [Polynomial.eval_sub, Polynomial.eval_sub, Polynomial.eval_comp,
      Polynomial.eval_comp, Polynomial.eval_mul, Polynomial.eval_mul,
      Polynomial.eval_C, Polynomial.eval_C, Polynomial.eval_X]
  have hNtroots : ∀ i, i < n - 2 → Nt.eval (g ^ i) = 0 := by
    intro i hi
    rw [hNtEval]
    have e2 : g * g * g ^ i = g ^ (i + 2) := by
      rw [pow_add, pow_two]
      ring
    have e1 : g * g ^ i = g ^ (i + 1) := by
      rw [pow_add, pow_one]
      ring
    rw [e2, e1, heval (i + 2) (by omega), heval (i + 1) (by omega), heval i (by omega)]
    rw [htrstep i (by omega)]
    ring
  have hNtdeg : Nt.natDegree ≤ n - 1 := by
    have hc2 : (t.comp (Polynomial.C (g * g) * Polynomial.X)).natDegree ≤ n - 1 := by
      calc (t.comp (Polynomial.C (g * g) * Polynomial.X)).natDegree ≤
          t.natDegree * (Polynomial.C (g * g) * Polynomial.X).natDegree :=
            Polynomial.natDegree_comp_le
        _ ≤ t.natDegree * 1 := by
            refine Nat.mul_le_mul_left _ ?_
            calc (Polynomial.C (g * g) * Polynomial.X).natDegree ≤
                (Polynomial.C (g * g)).natDegree + Polynomial.X.natDegree :=
                  Polynomial.natDegree_mul_le
              _ ≤ 1 := by rw [Polynomial.natDegree_C, Polynomial.natDegree_X]
        _ ≤ n - 1 := by omega
    have hc1 : (t.comp (Polynomial.C g * Polynomial.X)).natDegree ≤ n - 1 := by
      calc (t.comp (Polynomial.C g * Polynomial.X)).natDegree ≤
          t.natDegree * (Polynomial.C g * Polynomial.X).natDegree :=
            Polynomial.natDegree_comp_le
        _ ≤ t.natDegree * 1 := by
            refine Nat.mul_le_mul_left _ ?_
            calc (Polynomial.C g * Polynomial.X).natDegree ≤
                (Polynomial.C g).natDegree + Polynomial.X.natDegree :=
                  Polynomial.natDegree_mul_le
              _ ≤ 1 := by rw [Polynomial.natDegree_C, Polynomial.natDegree_X]
        _ ≤ n - 1 := by omega
    calc Nt.natDegree ≤ max (t.comp (Polynomial.C (g * g) * Polynomial.X) -
          t.comp (Polynomial.C g * Polynomial.X)).natDegree t.natDegree := by
          rw [hNt]
          exact Polynomial.natDegree_sub_le _ _
      _ ≤ n - 1 := by
          have hs : (t.comp (Polynomial.C (g * g) * Polynomial.X) -
              t.comp (Polynomial.C g * Polynomial.X)).natDegree ≤ n - 1 := by
            calc (t.comp (Polynomial.C (g * g) * Polynomial.X) -
                t.comp (Polynomial.C g * Polynomial.X)).natDegree ≤
                  max (t.comp (Polynomial.C (g * g) * Polynomial.X)).natDegree
                    (t.comp (Polynomial.C g * Polynomial.X)).natDegree :=
                  Polynomial.natDegree_sub_le _ _
              _ ≤ n - 1 := by omega
          omega
  have hTdvd := prod_range_X_sub_dvd Nt (fun i => g ^ i) (n - 2)
    (fun i j hi hj he => hprim.pow_inj (by omega) (by omega) he) hNtroots
  obtain ⟨T, hT, hTdeg⟩ := quotient_degree_le _ _ (n - 2) (n - 1) hTdvd hNtdeg
  -- The factorization X^n - 1 = Z_T * exemptions.
  have h1 : Polynomial.X ^ n - 1 =
      ∏ i ∈ Finset.range n, (Polynomial.X - Polynomial.C (g ^ i)) := by
    have h := X_pow_sub_C_eq_prod hprim hn0 (one_pow n)
    simpa using h
  have hfact : Polynomial.X ^ n - 1 =
      (∏ i ∈ Finset.range (n - 2), (Polynomial.X - Polynomial.C (g ^ i))) *
        ((Polynomial.X - Polynomial.C (g ^ (n - 2))) *
          (Polynomial.X - Polynomial.C (g ^ (n - 1)))) := by
    rw [h1]
    have e1 : n = (n - 2) + 1 + 1 := by omega
    calc (∏ i ∈ Finset.range n, (Polynomial.X - Polynomial.C (g ^ i)))
        = ∏ i ∈ Finset.range ((n - 2) + 1 + 1),
            (Polynomial.X - Polynomial.C (g ^ i)) := by rw [← e1]
      _ = (∏ i ∈ Finset.range ((n - 2) + 1),
            (Polynomial.X - Polynomial.C (g ^ i))) *
            (Polynomial.X - Polynomial.C (g ^ ((n - 2) + 1))) :=
          Finset.prod_range_succ _ _
      _ = ((∏ i ∈ Finset.range (n - 2), (Polynomial.X - Polynomial.C (g ^ i))) *
            (Polynomial.X - Polynomial.C (g ^ (n - 2)))) *
            (Polynomial.X - Polynomial.C (g ^ ((n - 2) + 1))) := by
          rw [Finset.prod_range_succ]
      _ = (∏ i ∈ Finset.range (n - 2), (Polynomial.X - Polynomial.C (g ^ i))) *
            ((Polynomial.X - Polynomial.C (g ^ (n - 2))) *
              (Polynomial.X - Polynomial.C (g ^ (n - 1)))) := by
          rw [show (n - 2) + 1 = n - 1 from by omega]
          ring
  -- Arithmetization succeeds; coset nonvanishing facts.
  have hdis : ∀ j i : Nat, (3 : F) * ω ^ j ≠ g ^ i :=
    coset_ne_trace_pow g ω n b m hnb hg1 hω1
  have hn2' : 2 ≤ (generate_fibonacci_trace n).length := by omega
  have hA := Arithmetization.new_eq g ω (generate_fibonacci_trace n) b hn2'
    (by
      intro x hx
      rw [hlen] at hx
      obtain ⟨j, _, rfl⟩ := List.mem_map.1 hx
      exact mul_ne_zero (sub_ne_zero.2 (hdis j 0)) (sub_ne_zero.2 (hdis j 1)))
    (by
      intro x hx
      rw [hlen] at hx ⊢
      obtain ⟨j, _, rfl⟩ := List.mem_map.1 hx
      exact mul_ne_zero (sub_ne_zero.2 (hdis j (n - 2))) (sub_ne_zero.2 (hdis j (n - 1))))
    (by
      intro x hx
      rw [hlen] at hx ⊢
      obtain ⟨j, _, rfl⟩ := List.mem_map.1 hx
      exact mul_ne_zero (sub_ne_zero.2 (coset_pow_n_ne_one ω n b m hnb hω1 j))
        (inv_ne_zero (mul_ne_zero (sub_ne_zero.2 (hdis j (n - 2)))
          (sub_ne_zero.2 (hdis j (n - 1))))))
  rw [hlen] at hA
  refine ⟨_, B, T, hA, hBdeg, hTdeg, ?_, ?_⟩
  · show ((List.range (n * b)).map (fun j => (3 : F) * ω ^ j)).map _ =
      ((List.range (n * b)).map (fun j => (3 : F) * ω ^ j)).map _
    refine List.map_congr_left (fun x hx => ?_)
    obtain ⟨j, _, rfl⟩ := List.mem_map.1 hx
    set x := (3 : F) * ω ^ j with hx0
    have hZB0 : (x - g ^ 0) * (x - g ^ 1) ≠ 0 :=
      mul_ne_zero (sub_ne_zero.2 (hdis j 0)) (sub_ne_zero.2 (hdis j 1))
    have h01 : g ^ 0 ≠ g ^ 1 := by
      intro he
      exact hgfin 1 (Finset.mem_range.2 (by omega)) (by omega)
        (by rw [← he, pow_zero])
    rw [← toPoly_eval, evalPoly_interpolate2_ones _ _ x h01]
    have hbx := congrArg (Polynomial.eval x) hB
    rw [Polynomial.eval_mul, Polynomial.eval_sub, Polynomial.eval_C] at hbx
    have hZBx : (∏ i ∈ Finset.range 2,
        (Polynomial.X - Polynomial.C (g ^ i))).eval x = (x - g ^ 0) * (x - g ^ 1) := by
      rw [prod_range_X_sub_eval, Finset.prod_range_succ, Finset.prod_range_one]
    have hZBne : (∏ i ∈ Finset.range 2,
        (Polynomial.X - Polynomial.C (g ^ i))).eval x ≠ 0 := by
      rw [hZBx]
      exact hZB0
    rw [← ht, hbx, ← hZBx, mul_right_comm, mul_inv_cancel₀ hZBne, one_mul]
  · show ((List.range (n * b)).map (fun j => (3 : F) * ω ^ j)).map _ =
      ((List.range (n * b)).map (fun j => (3 : F) * ω ^ j)).map _
    refine List.map_congr_left (fun x hx => ?_)
    obtain ⟨j, _, rfl⟩ := List.mem_map.1 hx
    set x := (3 : F) * ω ^ j with hx0
    have hE : (x - g ^ (n - 2)) * (x - g ^ (n - 1)) ≠ 0 :=
      mul_ne_zero (sub_ne_zero.2 (hdis j (n - 2))) (sub_ne_zero.2 (hdis j (n - 1)))
    have hxn : x ^ n - 1 ≠ 0 :=
      sub_ne_zero.2 (coset_pow_n_ne_one ω n b m hnb hω1 j)
    have hNtx : t.eval (x * (g * g)) - t.eval (x * g) - t.eval x =
        Nt.eval x := by
      rw [hNtEval, mul_comm (g * g) x, mul_comm g x]
    have hZTx : (∏ i ∈ Finset.range (n - 2),
        (Polynomial.X - Polynomial.C (g ^ i))).eval x *
          ((x - g ^ (n - 2)) * (x - g ^ (n - 1))) = x ^ n - 1 := by
      have h := congrArg (Polynomial.eval x) hfact
      rw [Polynomial.eval_sub, Polynomial.eval_pow, Polynomial.eval_X,
        Polynomial.eval_one, Polynomial.eval_mul, Polynomial.eval_mul,
        Polynomial.eval_sub, Polynomial.eval_sub, Polynomial.eval_X,
        Polynomial.eval_C, Polynomial.eval_C] at h
      exact h.symm
    have hZTval : (∏ i ∈ Finset.range (n - 2),
        (Polynomial.X - Polynomial.C (g ^ i))).eval x =
          (x ^ n - 1) * ((x - g ^ (n - 2)) * (x - g ^ (n - 1)))⁻¹ := by
      rw [← hZTx, mul_assoc, mul_inv_cancel₀ hE, mul_one]
    have hZTne : (∏ i ∈ Finset.range (n - 2),
        (Polynomial.X - Polynomial.C (g ^ i))).eval x ≠ 0 := by
      rw [hZTval]
      exact mul_ne_zero hxn (inv_ne_zero hE)
    have hTx := congrArg (Polynomial.eval x) hT
    rw [Polynomial.eval_mul] at hTx
    rw [← toPoly_eval, ← toPoly_eval, ← toPoly_eval, ← ht, hNtx, hTx, ← hZTval,
      mul_right_comm, mul_inv_cancel₀ hZTne, one_mul]

/-- Witness for C7: `n = 4`, `b = 2`, `g = 1728404513`, `ω = 1592366214`. -/
theorem C7_quotient_degrees_witness :
    ((4 : Nat) = 2 ^ 2 ∧ 2 ≤ 2 ∧ 4 * 2 = 2 ^ 3 ∧ (1728404513 : F) ^ 4 = 1 ∧
      (∀ i ∈ Finset.range 4, 0 < i → (1728404513 : F) ^ i ≠ 1) ∧
      (1592366214 : F) ^ (4 * 2) = 1) ∧
    ∃ (A : Arithmetization) (B T : Polynomial F),
      Arithmetization.new 1728404513 1592366214 (generate_fibonacci_trace 4) 2 = some A ∧
      B.natDegree ≤ 4 - 1 ∧ T.natDegree ≤ 4 - 1 ∧
      A.boundary_constraint_poly_lde = A.lde_domain.map (fun x => B.eval x) ∧
      A.transition_constraint_poly_lde = A.lde_domain.map (fun x => T.eval x) :=
  ⟨⟨by norm_num, by norm_num, by norm_num, by decide, by decide, by decide⟩,
    C7_quotient_degrees 1728404513 1592366214 4 2 2 3 (by norm_num) (by norm_num)
      (by norm_num) (by decide) (by decide) (by decide)⟩
